import Mathlib

/-!
# Pull-request aggregation client (`cmd/generate_changelog/internal/github/client.go`)

A shallow embedding of the GitHub client of the changelog generator: the
normaliser `convertGitHubPR`, the bounded worker pool `FetchPRs`, the search
paginator `FetchAllMergedPRs` and the cursor paginator
`FetchAllMergedPRsGraphQL`.

Conventions of the embedding.

* The provider is scripted: the k-th page request of a paginator receives the
  k-th entry of a list of responses, and the per-PR fetch is a function from
  the PR number to its outcome.
* Every operation returns, next to the values the Go function returns, the
  list of requests it issued (`calls`).
* A Go slice that is returned by an operation is an `Option (List α)`, `none`
  being the nil slice.  Record fields that are slices are lists: `Commits` is
  never nil and `Parents` is nil exactly when it is empty.
* The completion order of the goroutines of one fan-out is a parameter
  (`sched`); every order can be chosen.
* The goroutines of one fan-out are also given as a transition system (`Pool`),
  one statement per step, for the concurrency ceiling; its complete executions
  send the outcomes in a completion order of the functional model.
* Slices of pointers handed over by the API client (commits, parents, search
  hits) are lists of records: their elements are not nil.
* Diagnostics written to the standard error stream are not modelled.
-/

namespace Changelog

/-! ## Time, slices, errors, requests -/

/-- An instant of Go's `time.Time`, counted in nanoseconds from the zero time. -/
structure Time where
  ns : Int
deriving DecidableEq, Repr

namespace Time

/-- The zero value of `time.Time`. -/
def zero : Time := ⟨0⟩

/-- Go's `t.IsZero()`. -/
def IsZero (t : Time) : Bool := decide (t.ns = 0)

/-- Go's `t.Before(u)`: strictly earlier. -/
def Before (t u : Time) : Bool := decide (t.ns < u.ns)

end Time

/-- A Go slice value; `none` is the nil slice. -/
abbrev Slice (α : Type) := Option (List α)

namespace Slice

/-- The elements of a slice (none for the nil slice). -/
def elems {α : Type} (s : Slice α) : List α := s.getD []

/-- Go's `append(s, x)`: the outcome is never nil. -/
def append {α : Type} (s : Slice α) (x : α) : Slice α := some (s.elems ++ [x])

/-- Go's `len(s)`. -/
def len {α : Type} (s : Slice α) : Nat := s.elems.length

end Slice

/-- Error values, one constructor per `fmt.Errorf` format of the client and one
for the errors handed back by the transport. `%w` formats keep their cause. -/
inductive Error where
  /-- an error returned by the REST or GraphQL transport -/
  | provider (msg : String)
  /-- `"failed to fetch PR #%d: %w"` -/
  | fetchPR (num : Int) (cause : Error)
  /-- `"some PRs failed to fetch: %v"` over the collected errors -/
  | somePRsFailed (errors : List Error)
  /-- `"failed to fetch commits for PR %d: %w"` -/
  | fetchCommits (num : Int) (cause : Error)
  /-- `"failed to search PRs: %w"` -/
  | searchPRs (cause : Error)
  /-- `"GraphQL query failed: %w"` -/
  | graphQLQuery (cause : Error)

namespace Error

/-- Go's `errors.Unwrap`: the cause of a `%w` error. -/
def Unwrap : Error → Option Error
  | fetchPR _ cause => some cause
  | fetchCommits _ cause => some cause
  | searchPRs cause => some cause
  | graphQLQuery cause => some cause
  | provider _ => none
  | somePRsFailed _ => none

/-- The PR number a per-PR error names (`"failed to fetch PR #%d: ..."`). -/
def prNumber : Error → Option Int
  | fetchPR num _ => some num
  | _ => none

/-- The PR numbers referenced by an aggregate error, in the order of its
collected errors. -/
def failedPRs : Error → List Int
  | somePRsFailed errors => errors.filterMap prNumber
  | _ => []

end Error

/-- A request issued to the provider. -/
inductive Call where
  /-- `fetchSinglePR(ctx, num)` -/
  | fetchSinglePR (num : Int)
  /-- `Search.Issues` with `opts.Page = page` -/
  | searchIssues (page : Int)
  /-- the bulk query with cursor `after` -/
  | graphqlQuery (after : Option String)
deriving DecidableEq, Repr

/-- The outcome of running a loop against a scripted provider. -/
inductive Run (α : Type) where
  /-- the function returned -/
  | returned (a : α)
  /-- a nil pointer was dereferenced -/
  | panicked
  /-- the script has no response for the next page request -/
  | starved

/-! ## Canonical model -/

/-- Modelled from the spec: the `PRCommit` record, whose declaration is not
among the sources; the fields are those `client.go` assigns (spec section 3). -/
structure PRCommit where
  SHA : String
  Message : String
  Author : String
  Email : String
  Date : Time
  Parents : List String
deriving DecidableEq, Repr

/-- Modelled from the spec: the `PR` record, whose declaration is not among the
sources; the fields are those `client.go` assigns (spec section 3). -/
structure PR where
  Number : Int
  Title : String
  Body : String
  URL : String
  MergedAt : Time
  Author : String
  AuthorURL : String
  AuthorType : String
  MergeCommit : String
  Commits : List PRCommit
deriving DecidableEq, Repr

/-- What an operation hands back: the returned slice and error, and the
requests issued. -/
structure Fetched where
  prs : Slice PR
  err : Option Error
  calls : List Call

/-! ## Worker pool -/

/-- The order in which the goroutines of one fan-out deliver their outcomes.
The workers are listed in dispatch order; `sched` gives, for each worker, the
position its outcome takes among the outcomes of the workers dispatched after
it. Every permutation of the workers is the value of some `sched`. -/
def completionOrder {α : Type} : List α → List Nat → List α
  | [], _ => []
  | x :: xs, sched =>
      let later := completionOrder xs sched.tail
      later.insertIdx (sched.headD 0 % (later.length + 1)) x

/-- The drain of `prsChan`: the records of the successful workers, appended in
completion order. -/
def collectPRs (fetch : Int → Except Error PR) (done : List Int) (prs : Slice PR) : Slice PR :=
  done.foldl (fun acc num =>
    match fetch num with
    | .ok pr => acc.append pr
    | .error _ => acc) prs

/-- The drain of `errChan`: the wrapped errors of the failed workers, in
completion order. -/
def collectErrors (fetch : Int → Except Error PR) (done : List Int) : List Error :=
  done.filterMap (fun num =>
    match fetch num with
    | .ok _ => none
    | .error err => some (Error.fetchPR num err))

/-- `Client.FetchPRs`, over the per-PR fetch `fetch` (the outcome of
`fetchSinglePR` for each number) and the completion order `sched`. -/
def FetchPRs (fetch : Int → Except Error PR) (sched : List Nat) (prNumbers : List Int) : Fetched :=
  if prNumbers.length = 0 then
    { prs := some [], err := none, calls := [] }
  else
    let done := completionOrder prNumbers sched
    let prs := collectPRs fetch done (some [])
    let errors := collectErrors fetch done
    let calls := done.map Call.fetchSinglePR
    if errors.length > 0 then
      { prs := prs, err := some (Error.somePRsFailed errors), calls := calls }
    else
      { prs := prs, err := none, calls := calls }

/-! ## Provider shapes of the REST API (go-github) -/

/-- The fields of `github.User` the client reads. -/
structure User where
  Login : Option String
  HTMLURL : Option String
  Type_ : Option String
deriving DecidableEq, Repr

/-- The fields of `github.PullRequest` the client reads; a nil pointer is `none`. -/
structure PullRequest where
  Number : Option Int
  Title : Option String
  Body : Option String
  HTMLURL : Option String
  MergedAt : Option Time
  User : Option User
  MergeCommitSHA : Option String
deriving DecidableEq, Repr

/-- The fields of `github.CommitAuthor` the client reads. -/
structure CommitAuthor where
  Name : Option String
  Email : Option String
  Date : Option Time
deriving DecidableEq, Repr

/-- The fields of `github.Commit` the client reads. -/
structure Commit where
  SHA : Option String
  Message : Option String
  Author : Option CommitAuthor
deriving DecidableEq, Repr

/-- The fields of `github.RepositoryCommit` the client reads; a nil `Parents`
slice is the empty list, and the parents it holds are not nil. -/
structure RepositoryCommit where
  SHA : Option String
  Commit : Option Commit
  Parents : List Changelog.Commit
deriving DecidableEq, Repr

/-- The one field of `github.PullRequestLinks` kept by the model. -/
structure PullRequestLinks where
  URL : Option String
deriving DecidableEq, Repr

/-- The fields of `github.Issue` the client reads. -/
structure Issue where
  Number : Option Int
  PullRequestLinks : Option PullRequestLinks
deriving DecidableEq, Repr

/-- What one successful `Search.Issues` request hands back: `result.Issues` and
`resp.NextPage`. -/
structure SearchResponse where
  Issues : List Issue
  NextPage : Int
deriving DecidableEq, Repr

/-! ## Provider shape of the bulk query -/

/-- Modelled from the spec: the author node of `PullRequestsQuery`, whose
declaration is not among the sources; the fields are those `client.go` reads. -/
structure GqlAuthor where
  Typename : String
  Login : String
  URL : String
deriving DecidableEq, Repr

/-- Modelled from the spec: the commit author of `PullRequestsQuery` (declaration
not among the sources); `client.go` reads its name only. -/
structure GqlCommitAuthor where
  Name : String
deriving DecidableEq, Repr

/-- Modelled from the spec: the commit of a commit node of `PullRequestsQuery`
(declaration not among the sources); the fields are those `client.go` reads. -/
structure GqlCommit where
  OID : String
  Message : String
  Author : GqlCommitAuthor
  AuthoredDate : Time
deriving DecidableEq, Repr

/-- Modelled from the spec: a commit node of `PullRequestsQuery` (declaration not
among the sources). -/
structure GqlCommitNode where
  Commit : GqlCommit
deriving DecidableEq, Repr

/-- Modelled from the spec: a pull-request node of `PullRequestsQuery`
(declaration not among the sources); `Commits` stands for `Commits.Nodes`, and a
nil `Author` pointer is `none`. -/
structure GqlPR where
  Number : Int
  Title : String
  Body : String
  URL : String
  MergedAt : Time
  Author : Option GqlAuthor
  Commits : List GqlCommitNode
deriving DecidableEq, Repr

/-- Modelled from the spec: `PullRequestsQuery` after one successful query
(declaration not among the sources): `Repository.PullRequests.Nodes` and its
`PageInfo`. -/
structure PullRequestsQuery where
  Nodes : List GqlPR
  HasNextPage : Bool
  EndCursor : String
deriving DecidableEq, Repr

/-! ## Normaliser -/

/-- The source's `getString`. -/
def getString (s : Option String) : String :=
  match s with
  | none => ""
  | some v => v

/-- Go's `unicode.IsSpace`. -/
def isSpace (c : Char) : Bool :=
  let n := c.toNat
  n = 0x09 || n = 0x0A || n = 0x0B || n = 0x0C || n = 0x0D || n = 0x20 ||
  n = 0x85 || n = 0xA0 || n = 0x1680 || (0x2000 ≤ n && n ≤ 0x200A) ||
  n = 0x2028 || n = 0x2029 || n = 0x202F || n = 0x205F || n = 0x3000

/-- Go's `strings.TrimSpace`, on the characters of the string. -/
def TrimSpace (s : String) : String :=
  String.mk ((s.data.dropWhile isSpace).reverse.dropWhile isSpace).reverse

/-- The body of the commit loop of `convertGitHubPR`: the record for one raw
commit, none when `commit.Commit` is nil. -/
def convertCommit (commit : RepositoryCommit) : Option PRCommit :=
  match commit.Commit with
  | none => none
  | some c =>
    let prCommit : PRCommit :=
      { SHA := getString commit.SHA
        Message := TrimSpace (getString c.Message)
        Author := ""
        Email := ""
        Date := Time.zero
        Parents := [] }
    let prCommit : PRCommit :=
      match c.Author with
      | none => prCommit
      | some author =>
        { prCommit with
          Author := getString author.Name
          Email := getString author.Email
          Date := match author.Date with
            | some date => date
            | none => prCommit.Date }
    some { prCommit with Parents := commit.Parents.filterMap (fun parent => parent.SHA) }

/-- `Client.convertGitHubPR`; `none` is the panic of `*ghPR.Number` on a nil
pointer. -/
def convertGitHubPR (ghPR : PullRequest) (commits : List RepositoryCommit) : Option PR :=
  match ghPR.Number with
  | none => none
  | some number =>
    let result : PR :=
      { Number := number
        Title := getString ghPR.Title
        Body := getString ghPR.Body
        URL := getString ghPR.HTMLURL
        MergedAt := Time.zero
        Author := ""
        AuthorURL := ""
        AuthorType := ""
        MergeCommit := ""
        Commits := [] }
    let result : PR :=
      match ghPR.MergedAt with
      | some mergedAt => { result with MergedAt := mergedAt }
      | none => result
    let result : PR :=
      match ghPR.User with
      | some user =>
        let userType := getString user.Type_
        { result with
          Author := getString user.Login
          AuthorURL := getString user.HTMLURL
          AuthorType :=
            if userType = "User" then "user"
            else if userType = "Organization" then "organization"
            else if userType = "Bot" then "bot"
            else "user" }
      | none => result
    let result : PR :=
      match ghPR.MergeCommitSHA with
      | some sha => { result with MergeCommit := sha }
      | none => result
    some { result with Commits := commits.filterMap convertCommit }

/-- The REST transport of a client: `PullRequests.Get` and
`PullRequests.ListCommits` as functions of the PR number. -/
structure Client where
  pullRequestsGet : Int → Except Error PullRequest
  listCommits : Int → Except Error (List RepositoryCommit)

/-- `Client.buildPRWithCommits`; `none` is the panic of `*ghPR.Number`. -/
def buildPRWithCommits (c : Client) (ghPR : PullRequest) : Option (Except Error PR) :=
  match ghPR.Number with
  | none => none
  | some number =>
    match c.listCommits number with
    | .error err => some (.error (Error.fetchCommits number err))
    | .ok commits => (convertGitHubPR ghPR commits).map Except.ok

/-- `Client.fetchSinglePR`; `none` is a panic. -/
def fetchSinglePR (c : Client) (prNumber : Int) : Option (Except Error PR) :=
  match c.pullRequestsGet prNumber with
  | .error err => some (.error err)
  | .ok ghPR => buildPRWithCommits c ghPR

/-! ## Search paginator -/

/-- The PR numbers one page dispatches to workers: `*issue.Number` of every
hit with pull-request links, in page order; `none` when that dereference
panics. -/
def dispatched : List Issue → Option (List Int)
  | [] => some []
  | issue :: rest =>
    match issue.PullRequestLinks with
    | none => dispatched rest
    | some _ =>
      match issue.Number with
      | none => none
      | some prNumber => (dispatched rest).map (fun nums => prNumber :: nums)

/-- The page loop of `Client.FetchAllMergedPRs`: `responses` are the outcomes of
the successive `Search.Issues` requests, `scheds` the completion orders of the
successive fan-outs, `page` is `opts.Page`. -/
def searchLoop (fetch : Int → Except Error PR) :
    List (Except Error SearchResponse) → List (List Nat) → Int → Slice PR → List Call →
      Run Fetched
  | [], _, _, _, _ => Run.starved
  | .error err :: _, _, page, allPRs, calls =>
      Run.returned
        { prs := allPRs, err := some (Error.searchPRs err)
          calls := calls ++ [Call.searchIssues page] }
  | .ok result :: rest, scheds, page, allPRs, calls =>
      match dispatched result.Issues with
      | none => Run.panicked
      | some nums =>
        let done := completionOrder nums (scheds.headD [])
        let allPRs := collectPRs fetch done allPRs
        let calls := calls ++ [Call.searchIssues page] ++ done.map Call.fetchSinglePR
        if result.NextPage = 0 then
          Run.returned { prs := allPRs, err := none, calls := calls }
        else
          searchLoop fetch rest scheds.tail result.NextPage allPRs calls

/-- `Client.FetchAllMergedPRs`. The bound `since` only enters the text of the
search query, which the scripted provider does not read. -/
def FetchAllMergedPRs (fetch : Int → Except Error PR)
    (responses : List (Except Error SearchResponse)) (scheds : List (List Nat))
    (_since : Time) : Run Fetched :=
  searchLoop fetch responses scheds 0 none []

/-! ## Cursor paginator -/

/-- The body of the node loop of `Client.FetchAllMergedPRsGraphQL` after the
`since` test: the record for one node and the supplementary requests issued. -/
def convertNode (fetch : Int → Except Error PR) (gqlPR : GqlPR) : PR × List Call :=
  let pr : PR :=
    { Number := gqlPR.Number
      Title := gqlPR.Title
      Body := gqlPR.Body
      URL := gqlPR.URL
      MergedAt := gqlPR.MergedAt
      Author := ""
      AuthorURL := ""
      AuthorType := ""
      MergeCommit := ""
      Commits := [] }
  let commits : List PRCommit := gqlPR.Commits.map (fun commitNode =>
    { SHA := commitNode.Commit.OID
      Message := TrimSpace commitNode.Commit.Message
      Author := commitNode.Commit.Author.Name
      Email := ""
      Date := commitNode.Commit.AuthoredDate
      Parents := [] })
  match gqlPR.Author with
  | some author =>
    ({ pr with
        Author := author.Login
        AuthorURL := author.URL
        AuthorType :=
          if author.Typename = "Bot" then "bot"
          else if author.Typename = "Organization" then "organization"
          else if author.Typename = "User" then "user"
          else "user"
        Commits := commits }, [])
  | none =>
    let unknown : PR :=
      { pr with Author := "[unknown]", AuthorURL := "", AuthorType := "user", Commits := commits }
    match fetch gqlPR.Number with
    | .ok restPR =>
      if restPR.Author ≠ "" then
        ({ pr with
            Author := restPR.Author
            AuthorURL := restPR.AuthorURL
            AuthorType := restPR.AuthorType
            Commits := commits }, [Call.fetchSinglePR gqlPR.Number])
      else (unknown, [Call.fetchSinglePR gqlPR.Number])
    | .error _ => (unknown, [Call.fetchSinglePR gqlPR.Number])

/-- The node loop of `Client.FetchAllMergedPRsGraphQL` over one page: the
accumulated slice, the requests issued, and whether the `since` test fired. -/
def convertNodes (fetch : Int → Except Error PR) (since : Time) :
    List GqlPR → Slice PR → List Call → Slice PR × List Call × Bool
  | [], allPRs, calls => (allPRs, calls, false)
  | gqlPR :: rest, allPRs, calls =>
      if !since.IsZero && gqlPR.MergedAt.Before since then
        (allPRs, calls, true)
      else
        convertNodes fetch since rest (allPRs.append (convertNode fetch gqlPR).1)
          (calls ++ (convertNode fetch gqlPR).2)

/-- The page loop of `Client.FetchAllMergedPRsGraphQL`: `responses` are the
outcomes of the successive bulk queries, `after` the cursor. -/
def graphqlLoop (fetch : Int → Except Error PR) (since : Time) :
    List (Except Error PullRequestsQuery) → Option String → Slice PR → List Call → Run Fetched
  | [], _, _, _ => Run.starved
  | .error err :: _, after, allPRs, calls =>
      Run.returned
        { prs := allPRs, err := some (Error.graphQLQuery err)
          calls := calls ++ [Call.graphqlQuery after] }
  | .ok query :: rest, after, allPRs, calls =>
      match convertNodes fetch since query.Nodes allPRs (calls ++ [Call.graphqlQuery after]) with
      | (allPRs, calls, true) => Run.returned { prs := allPRs, err := none, calls := calls }
      | (allPRs, calls, false) =>
        if !query.HasNextPage then
          Run.returned { prs := allPRs, err := none, calls := calls }
        else
          graphqlLoop fetch since rest (some query.EndCursor) allPRs calls

/-- `Client.FetchAllMergedPRsGraphQL`. -/
def FetchAllMergedPRsGraphQL (fetch : Int → Except Error PR)
    (responses : List (Except Error PullRequestsQuery)) (since : Time) : Run Fetched :=
  graphqlLoop fetch since responses none none []

/-! ## The fan-out as a transition system

The goroutines of one fan-out (`FetchPRs`, lines 62 to 80; the same statements
in `FetchAllMergedPRs`, lines 276 to 298), interleaved one statement at a time.
A send on the semaphore channel is enabled while fewer than its capacity of
values are buffered; a receive from it while one is. The sends on `prsChan` and
`errChan` are always enabled: their capacity is the number of workers and each
worker sends once. -/

/-- The capacity of the semaphore channel, `make(chan struct{}, 10)`. -/
def semaphoreCapacity : Nat := 10

/-- Where a worker goroutine stands. -/
inductive WorkerPC where
  /-- at `semaphore <- struct{}{}` -/
  | acquiring
  /-- slot taken, `c.fetchSinglePR(ctx, num)` in flight -/
  | fetching
  /-- the fetch returned, at `errChan <- ...` or `prsChan <- pr` -/
  | delivering
  /-- outcome sent, at the deferred `<-semaphore` -/
  | releasing
  /-- slot given back; only the deferred `wg.Done()` is left -/
  | finished
deriving DecidableEq, Repr

/-- The state of one fan-out: the numbers the `for` loop has not dispatched
yet, the goroutines started so far with their number, the number of values
buffered in the semaphore channel, and the numbers whose outcome was sent, in
the order of sending. -/
structure Pool where
  pending : List Int
  workers : List (Int × WorkerPC)
  semaphore : Nat
  delivered : List Int
deriving DecidableEq, Repr

/-- One statement of the fan-out: the loop starts the next goroutine, or the
worker at an index executes its next statement. -/
inductive Event where
  /-- `wg.Add(1); go func(num int) ...` for the next number -/
  | dispatch
  /-- the next statement of the worker at index `i` -/
  | advance (i : Nat)
deriving DecidableEq, Repr

/-- The fan-out before the loop starts. -/
def Pool.start (prNumbers : List Int) : Pool :=
  { pending := prNumbers, workers := [], semaphore := 0, delivered := [] }

/-- One step of the fan-out; `none` when the statement is not enabled (a blocked
channel operation, a goroutine that has returned or was not started). -/
def Pool.step (s : Pool) : Event → Option Pool
  | Event.dispatch =>
      match s.pending with
      | [] => none
      | num :: rest =>
          some { s with pending := rest, workers := s.workers ++ [(num, WorkerPC.acquiring)] }
  | Event.advance i =>
      match s.workers[i]? with
      | none => none
      | some (num, WorkerPC.acquiring) =>
          if s.semaphore < semaphoreCapacity then
            some { s with
              workers := s.workers.set i (num, WorkerPC.fetching)
              semaphore := s.semaphore + 1 }
          else none
      | some (num, WorkerPC.fetching) =>
          some { s with workers := s.workers.set i (num, WorkerPC.delivering) }
      | some (num, WorkerPC.delivering) =>
          some { s with
            workers := s.workers.set i (num, WorkerPC.releasing)
            delivered := s.delivered ++ [num] }
      | some (num, WorkerPC.releasing) =>
          if 0 < s.semaphore then
            some { s with
              workers := s.workers.set i (num, WorkerPC.finished)
              semaphore := s.semaphore - 1 }
          else none
      | some (_, WorkerPC.finished) => none

/-- An execution: the statements of a list executed in order; `none` when one
of them is not enabled. -/
def Pool.run (s : Pool) : List Event → Option Pool
  | [] => some s
  | e :: es => (s.step e).bind (fun s' => s'.run es)

/-- Whether a worker at this point holds a slot of the semaphore. -/
def WorkerPC.holdsSlot : WorkerPC → Bool
  | WorkerPC.fetching => true
  | WorkerPC.delivering => true
  | WorkerPC.releasing => true
  | _ => false

/-- The number of per-PR fetch operations in flight. -/
def Pool.inFlight (s : Pool) : Nat :=
  s.workers.countP (fun w => decide (w.2 = WorkerPC.fetching))

/-- The number of workers holding a slot of the semaphore. -/
def Pool.slotsHeld (s : Pool) : Nat :=
  s.workers.countP (fun w => w.2.holdsSlot)

/-- The fan-out is over: every number was dispatched and every worker
returned. -/
def Pool.complete (s : Pool) : Bool :=
  s.pending.isEmpty && s.workers.all (fun w => decide (w.2 = WorkerPC.finished))

/-- Whether a worker at this point has yet to send its outcome. -/
def WorkerPC.owesOutcome : WorkerPC → Bool
  | WorkerPC.acquiring => true
  | WorkerPC.fetching => true
  | WorkerPC.delivering => true
  | _ => false

/-- The numbers of the started workers that have yet to send their outcome. -/
def Pool.undelivered (s : Pool) : List Int :=
  s.workers.filterMap (fun w => if w.2.owesOutcome then some w.1 else none)

/-! ## Vocabulary of the statements -/

/-- The record the per-PR fetch delivers for a number, none when it fails. -/
def fetchedPR (fetch : Int → Except Error PR) (num : Int) : Option PR :=
  match fetch num with
  | .ok pr => some pr
  | .error _ => none

/-- The error a worker records for a number, none when its fetch succeeds. -/
def fetchError (fetch : Int → Except Error PR) (num : Int) : Option Error :=
  match fetch num with
  | .ok _ => none
  | .error err => some (Error.fetchPR num err)

/-- Whether the per-PR fetch of a number fails. -/
def fetchFails (fetch : Int → Except Error PR) (num : Int) : Bool :=
  match fetch num with
  | .ok _ => false
  | .error _ => true

/-- The per-PR errors collected in the error an operation returned: the errors
formatted into the aggregate, none without an aggregate. -/
def Fetched.errors (r : Fetched) : List Error :=
  match r.err with
  | some (Error.somePRsFailed errors) => errors
  | _ => []

/-- Whether a request is a page request of a paginator. -/
def Call.isPageRequest : Call → Bool
  | Call.fetchSinglePR _ => false
  | Call.searchIssues _ => true
  | Call.graphqlQuery _ => true

/-- The number of page requests in a list of requests. -/
def pageRequests (calls : List Call) : Nat := (calls.filter Call.isPageRequest).length

/-- The PR number of a per-PR fetch request. -/
def Call.fetchedNumber : Call → Option Int
  | Call.fetchSinglePR num => some num
  | _ => none

/-- The PR numbers of the per-PR fetches in a list of requests, in order. -/
def singleFetches (calls : List Call) : List Int := calls.filterMap Call.fetchedNumber

/-- The PRs of a sequence of bulk-query pages, in page-then-position order. -/
def stream (pages : List PullRequestsQuery) : List GqlPR :=
  pages.flatMap (fun page => page.Nodes)

/-- The negation of the `since` test of the node loop: the bound is unset or the
PR was not merged strictly before it. -/
def kept (since : Time) (gqlPR : GqlPR) : Bool :=
  !(!since.IsZero && gqlPR.MergedAt.Before since)

/-- The canonical record the cursor paginator builds for a node. -/
def normalise (fetch : Int → Except Error PR) (gqlPR : GqlPR) : PR :=
  (convertNode fetch gqlPR).1

/-- Whether the bulk query delivered a node without author. -/
def authorAbsent (gqlPR : GqlPR) : Bool := gqlPR.Author.isNone

/-- A sequence of bulk-query pages as the provider serves it: it is not empty,
every page but the last reports a next page and the last reports none. -/
def wellChained : List PullRequestsQuery → Bool
  | [] => false
  | [page] => !page.HasNextPage
  | page :: next :: rest => page.HasNextPage && wellChained (next :: rest)

/-- Merge times in descending order along a list of PRs. -/
def descending (prs : List GqlPR) : Prop :=
  prs.Pairwise (fun earlier later => later.MergedAt.ns ≤ earlier.MergedAt.ns)

instance (prs : List GqlPR) : Decidable (descending prs) :=
  inferInstanceAs (Decidable (prs.Pairwise _))

/-- The PR numbers of the hits of a search page that are pull requests, in page
order. -/
def prHits (issues : List Issue) : List Int :=
  issues.filterMap (fun issue => if issue.PullRequestLinks.isSome then issue.Number else none)

/-- Every hit of a search page that is a pull request carries its number. -/
def numbered (issues : List Issue) : Bool :=
  issues.all (fun issue => issue.PullRequestLinks.isNone || issue.Number.isSome)

/-- A sequence of search pages as the provider serves it: it is not empty,
every page but the last names a next page and the last names none. -/
def searchChained : List SearchResponse → Bool
  | [] => false
  | [page] => decide (page.NextPage = 0)
  | page :: next :: rest => decide (page.NextPage ≠ 0) && searchChained (next :: rest)

/-- The records the search paginator accumulates over pages served in full:
page after page, the successes of the page in the completion order of its
fan-out. -/
def accumulated (fetch : Int → Except Error PR) : List SearchResponse → List (List Nat) → List PR
  | [], _ => []
  | page :: rest, scheds =>
      (completionOrder (prHits page.Issues) (scheds.headD [])).filterMap (fetchedPR fetch)
        ++ accumulated fetch rest scheds.tail

/-- The PR numbers of all hits of a sequence of search pages that are pull
requests. -/
def allHits (pages : List SearchResponse) : List Int :=
  pages.flatMap (fun page => prHits page.Issues)

/-- The PRs of a sequence of pages that the cursor paginator converts: those
before the first one that fails the `since` test. -/
def converted (since : Time) (pages : List PullRequestsQuery) : List GqlPR :=
  (stream pages).takeWhile (kept since)

/-- One commit carries the same data in the REST shape and in the bulk-query
shape: hash, message, author name and authored date. The REST shape also
carries the author email and the parents, which have no counterpart. -/
def sameCommit (commit : RepositoryCommit) (node : GqlCommitNode) : Prop :=
  commit.SHA = some node.Commit.OID
    ∧ ∃ c author, commit.Commit = some c
        ∧ c.Message = some node.Commit.Message
        ∧ c.Author = some author
        ∧ author.Name = some node.Commit.Author.Name
        ∧ author.Date = some node.Commit.AuthoredDate

/-- The author is the same in the two shapes: absent in both, or present in
both with the same login, URL and type tag. -/
def sameAuthor : Option User → Option GqlAuthor → Prop
  | some user, some author =>
      user.Login = some author.Login ∧ user.HTMLURL = some author.URL
        ∧ user.Type_ = some author.Typename
  | none, none => True
  | _, _ => False

/-- A pull request carries the same data in the REST shape (pull request plus
commit list) and in the bulk-query shape. The merge-commit hash of the REST
shape has no counterpart. -/
def sameProviderData (ghPR : PullRequest) (commits : List RepositoryCommit) (gqlPR : GqlPR) :
    Prop :=
  ghPR.Number = some gqlPR.Number
    ∧ ghPR.Title = some gqlPR.Title
    ∧ ghPR.Body = some gqlPR.Body
    ∧ ghPR.HTMLURL = some gqlPR.URL
    ∧ ghPR.MergedAt = some gqlPR.MergedAt
    ∧ sameAuthor ghPR.User gqlPR.Author
    ∧ List.Forall₂ sameCommit commits gqlPR.Commits

/-- A canonical record without the attributes the bulk-query shape does not
carry: merge-commit hash, commit author emails and commit parents. -/
def withoutRestOnly (pr : PR) : PR :=
  { pr with
    MergeCommit := ""
    Commits := pr.Commits.map (fun commit => { commit with Email := "", Parents := [] }) }

/-- The author classification of a record is one of `user`, `organization`,
`bot`. -/
def classified (pr : PR) : Prop :=
  pr.AuthorType = "user" ∨ pr.AuthorType = "organization" ∨ pr.AuthorType = "bot"

/-- Every record the per-PR fetch `fetch` delivers is the record
`fetchSinglePR` of the client `c` returns for that number. -/
def deliveredBy (c : Client) (fetch : Int → Except Error PR) : Prop :=
  ∀ num pr, fetch num = .ok pr → fetchSinglePR c num = some (.ok pr)

/-! ## Sample provider data -/

/-- A bulk-query node with the given number, merge time and author. -/
def sampleNode (number mergedAt : Int) (author : Option GqlAuthor) : GqlPR :=
  { Number := number, Title := "", Body := "", URL := "", MergedAt := ⟨mergedAt⟩
    Author := author, Commits := [] }

/-- A bulk-query page of the given nodes. -/
def samplePage (nodes : List GqlPR) (hasNextPage : Bool) : PullRequestsQuery :=
  { Nodes := nodes, HasNextPage := hasNextPage, EndCursor := "cursor" }

/-- An author node. -/
def sampleAuthor : GqlAuthor := { Typename := "User", Login := "octocat", URL := "" }

/-- A per-PR fetch that always fails. -/
def failingFetch : Int → Except Error PR :=
  fun _ => .error (Error.provider "unavailable")

/-- Two well-chained pages in descending merge-time order. -/
def samplePages : List PullRequestsQuery :=
  [samplePage [sampleNode 9 300 (some sampleAuthor), sampleNode 8 100 none] true,
   samplePage [sampleNode 7 100 (some sampleAuthor), sampleNode 6 50 none] false]

/-- Fifty PRs in descending merge-time order, from `t0` down to `t0` minus ten
days (times in nanoseconds). -/
def fiftyNodes (t0 : Int) : List GqlPR :=
  (List.range 49).map (fun i => sampleNode (100 - i) (t0 - i * 17280000000000) (some sampleAuthor))
    ++ [sampleNode 51 (t0 - 10 * 86400000000000) (some sampleAuthor)]

/-- A search hit: a pull request when `isPR`, a plain issue otherwise. -/
def sampleIssue (number : Int) (isPR : Bool) : Issue :=
  { Number := some number
    PullRequestLinks := if isPR then some { URL := none } else none }

/-- A canonical record with the given number and author. -/
def samplePR (number : Int) (author : String) : PR :=
  { Number := number, Title := "", Body := "", URL := "", MergedAt := Time.zero
    Author := author, AuthorURL := "", AuthorType := "user", MergeCommit := "", Commits := [] }

/-- A per-PR fetch that fails on the numbers 2 and 4 and succeeds elsewhere. -/
def flakyFetch : Int → Except Error PR :=
  fun num => if num = 2 ∨ num = 4 then .error (Error.provider "unavailable")
    else .ok (samplePR num "octocat")

/-- Two search pages: three hits, one of them a plain issue, then two hits. -/
def sampleSearchPages : List SearchResponse :=
  [{ Issues := [sampleIssue 1 true, sampleIssue 2 true, sampleIssue 3 false], NextPage := 2 },
   { Issues := [sampleIssue 4 true, sampleIssue 5 true], NextPage := 0 }]

/-- A per-PR fetch that always succeeds. -/
def steadyFetch : Int → Except Error PR :=
  fun num => .ok (samplePR num "octocat")

/-- Two search pages with 150 hits in all, the first five of them plain issues. -/
def scenarioSearchPages : List SearchResponse :=
  [{ Issues := (List.range 100).map (fun i => sampleIssue (i + 1) (decide (5 ≤ i)))
     NextPage := 2 },
   { Issues := (List.range 50).map (fun i => sampleIssue (i + 101) true), NextPage := 0 }]

/-- A merged pull request in the REST shape, with or without its user object. -/
def sampleGhPR (user : Option User) : PullRequest :=
  { Number := some 7, Title := some "Fix parser", Body := some "", HTMLURL := some "u"
    MergedAt := some ⟨500⟩, User := user, MergeCommitSHA := some "abc123" }

/-- The user object of the sample pull request. -/
def sampleUser : User := { Login := some "octocat", HTMLURL := some "", Type_ := some "User" }

/-- The commit list of the sample pull request in the REST shape. -/
def sampleGhCommits : List RepositoryCommit :=
  [{ SHA := some "c1"
     Commit := some { SHA := none, Message := some " tidy ",
                      Author := some { Name := some "Mona", Email := some "mona@example.com"
                                       Date := some ⟨400⟩ } }
     Parents := [{ SHA := some "c0", Message := none, Author := none }] }]

/-- The sample pull request in the bulk-query shape, with or without author. -/
def sampleGqlPR (author : Option GqlAuthor) : GqlPR :=
  { Number := 7, Title := "Fix parser", Body := "", URL := "u", MergedAt := ⟨500⟩
    Author := author
    Commits := [{ Commit := { OID := "c1", Message := " tidy ", Author := { Name := "Mona" }
                              AuthoredDate := ⟨400⟩ } }] }

/-- The PR numbers 1 to 25. -/
def scenarioNumbers : List Int := (List.range 25).map (fun i => (i : Int) + 1)

/-- A per-PR fetch that fails on the numbers 3, 7 and 20 and succeeds elsewhere. -/
def scenarioFetch : Int → Except Error PR :=
  fun num => if num = 3 ∨ num = 7 ∨ num = 20 then .error (Error.provider "unavailable")
    else .ok (samplePR num "octocat")

/-- A raw pull request that carries its number and nothing else. -/
def bareGhPR : PullRequest :=
  { Number := some 3, Title := none, Body := none, HTMLURL := none, MergedAt := none
    User := none, MergeCommitSHA := none }

/-- A raw commit list of two commits: one without author and parents, one with
an author without email. -/
def bareGhCommits : List RepositoryCommit :=
  [{ SHA := some "c9", Commit := some { SHA := none, Message := none, Author := none }
     Parents := [] },
   { SHA := some "c8"
     Commit := some { SHA := none, Message := some "x"
                      Author := some { Name := some "Mona", Email := none, Date := none } }
     Parents := [] }]

/-- A client whose REST transport serves the sample pull request and its
commits for every number. -/
def sampleClient : Client :=
  { pullRequestsGet := fun _ => .ok (sampleGhPR (some sampleUser))
    listCommits := fun _ => .ok sampleGhCommits }

/-- The record `fetchSinglePR` of the sample client returns. -/
def sampleRestPR : PR :=
  { Number := 7, Title := "Fix parser", Body := "", URL := "u", MergedAt := ⟨500⟩
    Author := "octocat", AuthorURL := "", AuthorType := "user", MergeCommit := "abc123"
    Commits := [{ SHA := "c1", Message := "tidy", Author := "Mona"
                  Email := "mona@example.com", Date := ⟨400⟩, Parents := ["c0"] }] }

/-- The per-PR fetch of the sample client. -/
def sampleClientFetch : Int → Except Error PR :=
  fun _ => .ok sampleRestPR

/-- Twelve PR numbers. -/
def twelveNumbers : List Int := (List.range 12).map (fun i => (i : Int) + 1)

/-- An execution of the fan-out over twelve numbers: all twelve goroutines are
started, then the first ten take a slot. -/
def tenAcquired : List Event :=
  List.replicate 12 Event.dispatch ++ (List.range 10).map Event.advance

/-- The fan-out over twelve numbers with ten fetches in flight and two workers
waiting for a slot. -/
def tenInFlight : Pool :=
  { pending := []
    workers := (List.range 12).map (fun i =>
      ((i : Int) + 1, if i < 10 then WorkerPC.fetching else WorkerPC.acquiring))
    semaphore := 10
    delivered := [] }

/-- A complete execution of the fan-out over the numbers 4 and 9: the second
worker sends its outcome first. -/
def twoWorkersRun : List Event :=
  [Event.dispatch, Event.dispatch, Event.advance 1, Event.advance 1, Event.advance 1,
   Event.advance 0, Event.advance 0, Event.advance 0, Event.advance 0, Event.advance 1]

/-- The state that execution ends in. -/
def twoWorkersDone : Pool :=
  { pending := [], workers := [(4, WorkerPC.finished), (9, WorkerPC.finished)]
    semaphore := 0, delivered := [9, 4] }

/-! ## Lemmas on the worker pool -/

theorem completionOrder_perm {α : Type} (xs : List α) (sched : List Nat) :
    (completionOrder xs sched).Perm xs := by
  induction xs generalizing sched with
  | nil => simp [completionOrder]
  | cons x xs ih =>
    simp only [completionOrder]
    have hle : sched.headD 0 % ((completionOrder xs sched.tail).length + 1)
        ≤ (completionOrder xs sched.tail).length :=
      Nat.lt_succ_iff.mp (Nat.mod_lt _ (Nat.succ_pos _))
    exact (List.perm_insertIdx x _ hle).trans ((ih sched.tail).cons x)

theorem insertIdx_length_append {α : Type} (x : α) (l₁ l₂ : List α) :
    (l₁ ++ l₂).insertIdx l₁.length x = l₁ ++ x :: l₂ := by
  induction l₁ with
  | nil => rfl
  | cons y ys ih => simp only [List.cons_append, List.length_cons, List.insertIdx_succ_cons, ih]

/-- Every order of the workers is a completion order. -/
theorem completionOrder_surjective {α : Type} (xs ys : List α) (h : ys.Perm xs) :
    ∃ sched, completionOrder xs sched = ys := by
  induction xs generalizing ys with
  | nil => exact ⟨[], (List.Perm.eq_nil h).symm⟩
  | cons x xs ih =>
    have hmem : x ∈ ys := h.symm.subset (List.mem_cons_self _ _)
    obtain ⟨l₁, l₂, rfl⟩ := List.append_of_mem hmem
    have hrest : (l₁ ++ l₂).Perm xs :=
      (List.perm_cons x).mp ((List.perm_middle.symm).trans h)
    obtain ⟨sched, hsched⟩ := ih (l₁ ++ l₂) hrest
    refine ⟨l₁.length :: sched, ?_⟩
    simp only [completionOrder, List.tail_cons, List.headD_cons, hsched]
    have hlt : l₁.length % ((l₁ ++ l₂).length + 1) = l₁.length := by
      apply Nat.mod_eq_of_lt
      rw [List.length_append]
      omega
    rw [hlt, insertIdx_length_append]

theorem Slice.elems_append {α : Type} (s : Slice α) (x : α) :
    (s.append x).elems = s.elems ++ [x] := rfl

theorem collectPRs_elems (fetch : Int → Except Error PR) (done : List Int) (prs : Slice PR) :
    (collectPRs fetch done prs).elems = prs.elems ++ done.filterMap (fetchedPR fetch) := by
  induction done generalizing prs with
  | nil => simp [collectPRs]
  | cons num rest ih =>
    have step : collectPRs fetch (num :: rest) prs
        = collectPRs fetch rest (match fetch num with
            | .ok pr => prs.append pr
            | .error _ => prs) := rfl
    rw [step, ih]
    cases h : fetch num with
    | ok pr => simp [fetchedPR, h, Slice.elems_append]
    | error err => simp [fetchedPR, h]

theorem collectPRs_isSome (fetch : Int → Except Error PR) (done : List Int) (prs : Slice PR)
    (h : prs.isSome = true) : (collectPRs fetch done prs).isSome = true := by
  induction done generalizing prs with
  | nil => simpa [collectPRs] using h
  | cons num rest ih =>
    have step : collectPRs fetch (num :: rest) prs
        = collectPRs fetch rest (match fetch num with
            | .ok pr => prs.append pr
            | .error _ => prs) := rfl
    rw [step]
    apply ih
    cases fetch num with
    | ok pr => rfl
    | error err => exact h

theorem collectErrors_eq (fetch : Int → Except Error PR) (done : List Int) :
    collectErrors fetch done = done.filterMap (fetchError fetch) := rfl

theorem outcomes_length (fetch : Int → Except Error PR) (nums : List Int) :
    (nums.filterMap (fetchedPR fetch)).length + (nums.filterMap (fetchError fetch)).length
      = nums.length := by
  induction nums with
  | nil => rfl
  | cons num rest ih =>
    cases h : fetch num with
    | ok pr => simp [List.filterMap_cons, fetchedPR, fetchError, h]; omega
    | error err => simp [List.filterMap_cons, fetchedPR, fetchError, h]; omega

theorem failedPRs_filterMap (fetch : Int → Except Error PR) (nums : List Int) :
    (nums.filterMap (fetchError fetch)).filterMap Error.prNumber
      = nums.filter (fetchFails fetch) := by
  induction nums with
  | nil => rfl
  | cons num rest ih =>
    cases h : fetch num with
    | ok pr => simpa [List.filterMap_cons, List.filter_cons, fetchError, fetchFails, h] using ih
    | error err =>
      simpa [List.filterMap_cons, List.filter_cons, fetchError, fetchFails, h, Error.prNumber]
        using ih

theorem fetchError_eq_none_iff (fetch : Int → Except Error PR) (num : Int) :
    fetchError fetch num = none ↔ fetchFails fetch num = false := by
  cases h : fetch num <;> simp [fetchError, fetchFails, h]

/-- The three components of `FetchPRs` on any list: the slice holds the
successes in completion order; the error is the aggregate of the recorded
errors when there is one. -/
theorem FetchPRs_eq (fetch : Int → Except Error PR) (sched : List Nat) (prNumbers : List Int) :
    (FetchPRs fetch sched prNumbers).prs.elems
        = (completionOrder prNumbers sched).filterMap (fetchedPR fetch)
      ∧ (FetchPRs fetch sched prNumbers).err
        = (if ((completionOrder prNumbers sched).filterMap (fetchError fetch)).length = 0 then none
           else some (Error.somePRsFailed
             ((completionOrder prNumbers sched).filterMap (fetchError fetch))))
      ∧ (FetchPRs fetch sched prNumbers).calls
        = (if prNumbers.length = 0 then []
           else (completionOrder prNumbers sched).map Call.fetchSinglePR) := by
  cases prNumbers with
  | nil => simp [FetchPRs, completionOrder, Slice.elems]
  | cons num rest =>
    have hne : ¬ (num :: rest).length = 0 := by simp
    simp only [FetchPRs, hne, if_false, collectErrors_eq]
    by_cases hE : ((completionOrder (num :: rest) sched).filterMap (fetchError fetch)).length = 0
    · have hpos : ¬ ((completionOrder (num :: rest) sched).filterMap (fetchError fetch)).length > 0 := by
        omega
      rw [if_neg hpos, if_pos hE]
      exact ⟨by rw [collectPRs_elems]; rfl, rfl, rfl⟩
    · have hpos : ((completionOrder (num :: rest) sched).filterMap (fetchError fetch)).length > 0 := by
        omega
      rw [if_pos hpos, if_neg hE]
      exact ⟨by rw [collectPRs_elems]; rfl, rfl, rfl⟩

/-! ## The worker pool: claims C1 to C3 -/

/-- C1: for every list of PR numbers (in particular every non-empty one), every
per-number fetch outcome and every completion order, `FetchPRs` yields one
outcome per list position: the number of returned records plus the number of
collected per-PR errors is the length of the list, the returned records are, up
to order, the records of the positions whose fetch succeeded, and the collected
errors are, up to order, the wrapped errors of the positions whose fetch
failed. -/
theorem FetchPRs_one_outcome_per_position (fetch : Int → Except Error PR) (sched : List Nat)
    (prNumbers : List Int) :
    (FetchPRs fetch sched prNumbers).prs.len + (FetchPRs fetch sched prNumbers).errors.length
        = prNumbers.length
      ∧ (FetchPRs fetch sched prNumbers).prs.elems.Perm (prNumbers.filterMap (fetchedPR fetch))
      ∧ (FetchPRs fetch sched prNumbers).errors.Perm
          (prNumbers.filterMap (fetchError fetch)) := by
  obtain ⟨hprs, herr, -⟩ := FetchPRs_eq fetch sched prNumbers
  have hperm := completionOrder_perm prNumbers sched
  have herrors : (FetchPRs fetch sched prNumbers).errors
      = (completionOrder prNumbers sched).filterMap (fetchError fetch) := by
    unfold Fetched.errors
    rw [herr]
    by_cases hE : ((completionOrder prNumbers sched).filterMap (fetchError fetch)).length = 0
    · rw [if_pos hE]
      exact (List.length_eq_zero.mp hE).symm
    · rw [if_neg hE]
  refine ⟨?_, ?_, ?_⟩
  · rw [Slice.len, hprs, herrors, outcomes_length, hperm.length_eq]
  · rw [hprs]
    exact hperm.filterMap _
  · rw [herrors]
    exact hperm.filterMap _

/-- C2: `FetchPRs` returns an error exactly when some per-PR fetch fails; with
or without one it returns, up to order, every successfully fetched record; the
error is one aggregate of the collected errors, and the PR numbers it references
are, up to order, the failing numbers of the list. So 25 numbers of which 3 fail
give 22 records and one aggregate error referencing those 3. -/
theorem FetchPRs_aggregate_error (fetch : Int → Except Error PR) (sched : List Nat)
    (prNumbers : List Int) :
    ((FetchPRs fetch sched prNumbers).err.isSome = true
        ↔ ∃ num ∈ prNumbers, fetchFails fetch num = true)
      ∧ (FetchPRs fetch sched prNumbers).prs.elems.Perm (prNumbers.filterMap (fetchedPR fetch))
      ∧ (∀ err, (FetchPRs fetch sched prNumbers).err = some err →
          (∃ errors, err = Error.somePRsFailed errors
              ∧ errors.Perm (prNumbers.filterMap (fetchError fetch)))
            ∧ err.failedPRs.Perm (prNumbers.filter (fetchFails fetch)))
      ∧ (prNumbers.length = 25 → (prNumbers.filter (fetchFails fetch)).length = 3 →
          (FetchPRs fetch sched prNumbers).prs.len = 22
            ∧ ∃ err, (FetchPRs fetch sched prNumbers).err = some err
                ∧ err.failedPRs.Perm (prNumbers.filter (fetchFails fetch))
                ∧ err.failedPRs.length = 3) := by
  obtain ⟨hprs, herr, -⟩ := FetchPRs_eq fetch sched prNumbers
  have hperm := completionOrder_perm prNumbers sched
  have hfailed : (Error.somePRsFailed
      ((completionOrder prNumbers sched).filterMap (fetchError fetch))).failedPRs.Perm
        (prNumbers.filter (fetchFails fetch)) := by
    show (((completionOrder prNumbers sched).filterMap (fetchError fetch)).filterMap
      Error.prNumber).Perm _
    rw [failedPRs_filterMap]
    exact hperm.filter _
  have hlen : ((completionOrder prNumbers sched).filterMap (fetchError fetch)).length
      = (prNumbers.filter (fetchFails fetch)).length := by
    rw [(hperm.filterMap (fetchError fetch)).length_eq, ← failedPRs_filterMap]
    have hall : ∀ (l : List Int),
        ((l.filterMap (fetchError fetch)).filterMap Error.prNumber).length
          = (l.filterMap (fetchError fetch)).length := by
      intro l
      rw [failedPRs_filterMap]
      induction l with
      | nil => rfl
      | cons num rest ih =>
        cases h : fetch num with
        | ok pr => simpa [List.filterMap_cons, List.filter_cons, fetchError, fetchFails, h] using ih
        | error e =>
          simpa [List.filterMap_cons, List.filter_cons, fetchError, fetchFails, h] using ih
    exact (hall prNumbers).symm
  have hsome : ∀ err, (FetchPRs fetch sched prNumbers).err = some err →
      err = Error.somePRsFailed ((completionOrder prNumbers sched).filterMap (fetchError fetch)) := by
    intro err h
    rw [herr] at h
    by_cases hE : ((completionOrder prNumbers sched).filterMap (fetchError fetch)).length = 0
    · rw [if_pos hE] at h
      cases h
    · rw [if_neg hE] at h
      exact (Option.some.inj h).symm
  refine ⟨?_, ?_, ?_, ?_⟩
  · rw [herr, hlen]
    constructor
    · intro h
      by_cases hE : (prNumbers.filter (fetchFails fetch)).length = 0
      · rw [if_pos hE] at h
        cases h
      · obtain ⟨num, hmem⟩ := List.exists_mem_of_length_pos (Nat.pos_of_ne_zero hE)
        exact ⟨num, (List.mem_filter.mp hmem).1, (List.mem_filter.mp hmem).2⟩
    · rintro ⟨num, hmem, hfail⟩
      have hpos : (prNumbers.filter (fetchFails fetch)).length ≠ 0 := by
        have := List.length_pos_of_mem (List.mem_filter.mpr ⟨hmem, hfail⟩)
        omega
      rw [if_neg hpos]
      rfl
  · rw [hprs]
    exact hperm.filterMap _
  · intro err h
    rw [hsome err h]
    exact ⟨⟨_, rfl, hperm.filterMap _⟩, hfailed⟩
  · intro h25 h3
    constructor
    · have hsum := outcomes_length fetch (completionOrder prNumbers sched)
      rw [Slice.len, hprs]
      rw [hlen, h3, hperm.length_eq, h25] at hsum
      omega
    · have hE : ¬ ((completionOrder prNumbers sched).filterMap (fetchError fetch)).length = 0 := by
        rw [hlen, h3]
        decide
      refine ⟨_, by rw [herr, if_neg hE], hfailed, ?_⟩
      rw [hfailed.length_eq, h3]

/-- C3: on the empty list `FetchPRs` returns a non-nil slice of length 0 and no
error, and issues no per-PR fetch (no request at all). -/
theorem FetchPRs_empty (fetch : Int → Except Error PR) (sched : List Nat) :
    (FetchPRs fetch sched []).prs = some []
      ∧ (FetchPRs fetch sched []).prs.len = 0
      ∧ (FetchPRs fetch sched []).err = none
      ∧ (FetchPRs fetch sched []).calls = [] :=
  ⟨rfl, rfl, rfl, rfl⟩

/-! ## Lemmas on the cursor paginator -/

theorem convertNode_calls (fetch : Int → Except Error PR) (gqlPR : GqlPR) :
    (convertNode fetch gqlPR).2
      = if authorAbsent gqlPR then [Call.fetchSinglePR gqlPR.Number] else [] := by
  unfold convertNode authorAbsent
  cases hA : gqlPR.Author with
  | some author => simp
  | none =>
    cases hF : fetch gqlPR.Number with
    | error err => simp
    | ok restPR =>
      by_cases hne : restPR.Author = ""
      · simp [hne]
      · simp [hne]

theorem pageRequests_append (xs ys : List Call) :
    pageRequests (xs ++ ys) = pageRequests xs + pageRequests ys := by
  simp [pageRequests]

theorem singleFetches_append (xs ys : List Call) :
    singleFetches (xs ++ ys) = singleFetches xs ++ singleFetches ys := by
  simp [singleFetches]

theorem pageRequests_convertNode (fetch : Int → Except Error PR) (gqlPR : GqlPR) :
    pageRequests (convertNode fetch gqlPR).2 = 0 := by
  rw [convertNode_calls]
  cases authorAbsent gqlPR <;> rfl

theorem singleFetches_convertNode (fetch : Int → Except Error PR) (gqlPR : GqlPR) :
    singleFetches (convertNode fetch gqlPR).2
      = if authorAbsent gqlPR then [gqlPR.Number] else [] := by
  rw [convertNode_calls]
  cases authorAbsent gqlPR <;> rfl

theorem convertNodes_cons_kept (fetch : Int → Except Error PR) (since : Time) (gqlPR : GqlPR)
    (rest : List GqlPR) (allPRs : Slice PR) (calls : List Call) (h : kept since gqlPR = true) :
    convertNodes fetch since (gqlPR :: rest) allPRs calls
      = convertNodes fetch since rest (allPRs.append (convertNode fetch gqlPR).1)
          (calls ++ (convertNode fetch gqlPR).2) := by
  have h' : (!since.IsZero && gqlPR.MergedAt.Before since) = false := by
    unfold kept at h
    revert h
    cases (!since.IsZero && gqlPR.MergedAt.Before since) <;> simp
  simp only [convertNodes, h']
  rfl

theorem convertNodes_cons_old (fetch : Int → Except Error PR) (since : Time) (gqlPR : GqlPR)
    (rest : List GqlPR) (allPRs : Slice PR) (calls : List Call) (h : kept since gqlPR = false) :
    convertNodes fetch since (gqlPR :: rest) allPRs calls = (allPRs, calls, true) := by
  have h' : (!since.IsZero && gqlPR.MergedAt.Before since) = true := by
    unfold kept at h
    revert h
    cases (!since.IsZero && gqlPR.MergedAt.Before since) <;> simp
  simp only [convertNodes, h']
  rfl

/-- The node loop over one page: it converts the nodes before the first one
that fails the `since` test, and reports whether there is such a node. -/
theorem convertNodes_spec (fetch : Int → Except Error PR) (since : Time) (nodes : List GqlPR)
    (allPRs : Slice PR) (calls : List Call) :
    (convertNodes fetch since nodes allPRs calls).1.elems
        = allPRs.elems ++ (nodes.takeWhile (kept since)).map (normalise fetch)
      ∧ singleFetches (convertNodes fetch since nodes allPRs calls).2.1
        = singleFetches calls
          ++ ((nodes.takeWhile (kept since)).filter authorAbsent).map (fun gqlPR => gqlPR.Number)
      ∧ pageRequests (convertNodes fetch since nodes allPRs calls).2.1 = pageRequests calls
      ∧ (convertNodes fetch since nodes allPRs calls).2.2 = !(nodes.all (kept since)) := by
  induction nodes generalizing allPRs calls with
  | nil => simp [convertNodes]
  | cons gqlPR rest ih =>
    cases h : kept since gqlPR with
    | false =>
      rw [convertNodes_cons_old fetch since gqlPR rest allPRs calls h]
      simp [List.takeWhile_cons, h]
    | true =>
      rw [convertNodes_cons_kept fetch since gqlPR rest allPRs calls h]
      obtain ⟨h1, h2, h3, h4⟩ := ih (allPRs.append (convertNode fetch gqlPR).1)
        (calls ++ (convertNode fetch gqlPR).2)
      refine ⟨?_, ?_, ?_, ?_⟩
      · rw [h1, Slice.elems_append]
        simp [List.takeWhile_cons, h, normalise]
      · rw [h2, singleFetches_append, singleFetches_convertNode]
        cases hA : authorAbsent gqlPR <;> simp [List.takeWhile_cons, h, List.filter_cons, hA]
      · rw [h3, pageRequests_append, pageRequests_convertNode]
        rfl
      · rw [h4]
        simp [List.all_cons, h]

theorem graphqlLoop_error (fetch : Int → Except Error PR) (since : Time) (err : Error)
    (rest : List (Except Error PullRequestsQuery)) (after : Option String) (allPRs : Slice PR)
    (calls : List Call) :
    graphqlLoop fetch since (.error err :: rest) after allPRs calls
      = Run.returned
          { prs := allPRs, err := some (Error.graphQLQuery err)
            calls := calls ++ [Call.graphqlQuery after] } := rfl

theorem graphqlLoop_stop (fetch : Int → Except Error PR) (since : Time) (query : PullRequestsQuery)
    (rest : List (Except Error PullRequestsQuery)) (after : Option String) (allPRs : Slice PR)
    (calls : List Call)
    (h : (query.Nodes.all (kept since) && query.HasNextPage) = false) :
    graphqlLoop fetch since (.ok query :: rest) after allPRs calls
      = Run.returned
          { prs := (convertNodes fetch since query.Nodes allPRs
              (calls ++ [Call.graphqlQuery after])).1
            err := none
            calls := (convertNodes fetch since query.Nodes allPRs
              (calls ++ [Call.graphqlQuery after])).2.1 } := by
  have hflag := (convertNodes_spec fetch since query.Nodes allPRs
    (calls ++ [Call.graphqlQuery after])).2.2.2
  rw [graphqlLoop]
  generalize convertNodes fetch since query.Nodes allPRs (calls ++ [Call.graphqlQuery after])
    = out at hflag ⊢
  obtain ⟨prs, log, flag⟩ := out
  cases flag with
  | true => rfl
  | false =>
    have hall : query.Nodes.all (kept since) = true := by
      simpa using hflag.symm
    have hnext : query.HasNextPage = false := by
      simpa [hall] using h
    simp [hnext]

theorem graphqlLoop_continue (fetch : Int → Except Error PR) (since : Time)
    (query : PullRequestsQuery) (rest : List (Except Error PullRequestsQuery))
    (after : Option String) (allPRs : Slice PR) (calls : List Call)
    (hall : query.Nodes.all (kept since) = true) (hnext : query.HasNextPage = true) :
    graphqlLoop fetch since (.ok query :: rest) after allPRs calls
      = graphqlLoop fetch since rest (some query.EndCursor)
          (convertNodes fetch since query.Nodes allPRs (calls ++ [Call.graphqlQuery after])).1
          (convertNodes fetch since query.Nodes allPRs (calls ++ [Call.graphqlQuery after])).2.1 := by
  have hflag := (convertNodes_spec fetch since query.Nodes allPRs
    (calls ++ [Call.graphqlQuery after])).2.2.2
  rw [graphqlLoop]
  generalize convertNodes fetch since query.Nodes allPRs (calls ++ [Call.graphqlQuery after])
    = out at hflag ⊢
  obtain ⟨prs, log, flag⟩ := out
  cases flag with
  | true => simp [hall] at hflag
  | false => simp [hnext]

theorem takeWhile_of_all {α : Type} (p : α → Bool) (l : List α) (h : l.all p = true) :
    l.takeWhile p = l := by
  induction l with
  | nil => rfl
  | cons x xs ih =>
    simp only [List.all_cons, Bool.and_eq_true] at h
    simp [List.takeWhile_cons, h.1, ih h.2]

theorem takeWhile_append_of_all {α : Type} (p : α → Bool) (l m : List α)
    (h : l.all p = true) : (l ++ m).takeWhile p = l ++ m.takeWhile p := by
  induction l with
  | nil => rfl
  | cons x xs ih =>
    simp only [List.all_cons, Bool.and_eq_true] at h
    simp [List.takeWhile_cons, h.1, ih h.2]

theorem takeWhile_append_of_not_all {α : Type} (p : α → Bool) (l m : List α)
    (h : l.all p = false) : (l ++ m).takeWhile p = l.takeWhile p := by
  induction l with
  | nil => simp at h
  | cons x xs ih =>
    cases hx : p x with
    | false => simp [List.takeWhile_cons, hx]
    | true =>
      have hxs : xs.all p = false := by simpa [List.all_cons, hx] using h
      simp [List.takeWhile_cons, hx, ih hxs]

theorem stream_cons (page : PullRequestsQuery) (rest : List PullRequestsQuery) :
    stream (page :: rest) = page.Nodes ++ stream rest := rfl

theorem stream_append (xs ys : List PullRequestsQuery) :
    stream (xs ++ ys) = stream xs ++ stream ys := by
  induction xs with
  | nil => rfl
  | cons page rest ih => rw [List.cons_append, stream_cons, stream_cons, ih, List.append_assoc]

/-- Pages that report a next page and hold no node failing the `since` test are
consumed whole: the loop goes on with the rest of the script. -/
theorem graphqlLoop_clean_pages (fetch : Int → Except Error PR) (since : Time)
    (pre : List PullRequestsQuery) (rest : List (Except Error PullRequestsQuery))
    (after : Option String) (allPRs : Slice PR) (calls : List Call)
    (hpre : ∀ page ∈ pre, page.HasNextPage = true ∧ page.Nodes.all (kept since) = true) :
    ∃ after' allPRs' calls',
      graphqlLoop fetch since (pre.map Except.ok ++ rest) after allPRs calls
          = graphqlLoop fetch since rest after' allPRs' calls'
        ∧ allPRs'.elems = allPRs.elems ++ (stream pre).map (normalise fetch)
        ∧ singleFetches calls'
          = singleFetches calls
            ++ ((stream pre).filter authorAbsent).map (fun gqlPR => gqlPR.Number)
        ∧ pageRequests calls' = pageRequests calls + pre.length := by
  induction pre generalizing after allPRs calls with
  | nil => exact ⟨after, allPRs, calls, rfl, by simp [stream], by simp [stream], rfl⟩
  | cons page pages ih =>
    obtain ⟨hnext, hall⟩ := hpre page (List.mem_cons_self _ _)
    obtain ⟨h1, h2, h3, -⟩ := convertNodes_spec fetch since page.Nodes allPRs
      (calls ++ [Call.graphqlQuery after])
    obtain ⟨after', allPRs', calls', hrun, hprs, hfetch, hreq⟩ :=
      ih (some page.EndCursor)
        (convertNodes fetch since page.Nodes allPRs (calls ++ [Call.graphqlQuery after])).1
        (convertNodes fetch since page.Nodes allPRs (calls ++ [Call.graphqlQuery after])).2.1
        (fun q hq => hpre q (List.mem_cons_of_mem _ hq))
    refine ⟨after', allPRs', calls', ?_, ?_, ?_, ?_⟩
    · rw [List.map_cons, List.cons_append,
        graphqlLoop_continue fetch since page _ after allPRs calls hall hnext, hrun]
    · rw [hprs, h1, takeWhile_of_all _ _ hall, stream_cons]
      simp
    · rw [hfetch, h2, takeWhile_of_all _ _ hall, stream_cons, singleFetches_append]
      simp [singleFetches, Call.fetchedNumber]
    · rw [hreq, h3, pageRequests_append]
      simp [pageRequests, Call.isPageRequest]
      omega

/-- A well-chained sequence of pages, all served without error: the paginator
returns, without error, the records of the PRs before the first one that fails
the `since` test. -/
theorem graphqlLoop_wellChained (fetch : Int → Except Error PR) (since : Time)
    (pages : List PullRequestsQuery) (hchain : wellChained pages = true)
    (after : Option String) (allPRs : Slice PR) (calls : List Call) :
    ∃ r, graphqlLoop fetch since (pages.map Except.ok) after allPRs calls = Run.returned r
      ∧ r.prs.elems
        = allPRs.elems ++ ((stream pages).takeWhile (kept since)).map (normalise fetch)
      ∧ r.err = none
      ∧ singleFetches r.calls
        = singleFetches calls
          ++ (((stream pages).takeWhile (kept since)).filter authorAbsent).map
              (fun gqlPR => gqlPR.Number)
      ∧ pageRequests r.calls ≤ pageRequests calls + pages.length := by
  induction pages generalizing after allPRs calls with
  | nil => simp [wellChained] at hchain
  | cons page rest ih =>
    obtain ⟨h1, h2, h3, -⟩ := convertNodes_spec fetch since page.Nodes allPRs
      (calls ++ [Call.graphqlQuery after])
    have hreq : pageRequests (calls ++ [Call.graphqlQuery after]) = pageRequests calls + 1 := by
      rw [pageRequests_append]
      rfl
    have hsf : singleFetches (calls ++ [Call.graphqlQuery after]) = singleFetches calls := by
      rw [singleFetches_append]
      simp [singleFetches, Call.fetchedNumber]
    cases hall : page.Nodes.all (kept since) with
    | false =>
      refine ⟨_, graphqlLoop_stop fetch since page _ after allPRs calls (by simp [hall]),
        ?_, rfl, ?_, ?_⟩
      · rw [h1, stream_cons, takeWhile_append_of_not_all _ _ _ hall]
      · show singleFetches (convertNodes fetch since page.Nodes allPRs
          (calls ++ [Call.graphqlQuery after])).2.1 = _
        rw [h2, hsf, stream_cons, takeWhile_append_of_not_all _ _ _ hall]
      · show pageRequests (convertNodes fetch since page.Nodes allPRs
          (calls ++ [Call.graphqlQuery after])).2.1 ≤ _
        rw [h3, hreq, List.length_cons]
        omega
    | true =>
      cases rest with
      | nil =>
        have hnext : page.HasNextPage = false := by simpa [wellChained] using hchain
        refine ⟨_, graphqlLoop_stop fetch since page _ after allPRs calls (by simp [hnext]),
          ?_, rfl, ?_, ?_⟩
        · rw [h1, stream_cons, takeWhile_append_of_all _ _ _ hall, takeWhile_of_all _ _ hall]
          simp [stream]
        · show singleFetches (convertNodes fetch since page.Nodes allPRs
            (calls ++ [Call.graphqlQuery after])).2.1 = _
          rw [h2, hsf, stream_cons, takeWhile_append_of_all _ _ _ hall,
            takeWhile_of_all _ _ hall]
          simp [stream]
        · show pageRequests (convertNodes fetch since page.Nodes allPRs
            (calls ++ [Call.graphqlQuery after])).2.1 ≤ _
          rw [h3, hreq, List.length_cons]
          simp
      | cons next rest' =>
        have hc : page.HasNextPage = true ∧ wellChained (next :: rest') = true := by
          simpa [wellChained] using hchain
        obtain ⟨r, hrun, hprs, herr, hfetch, hcount⟩ :=
          ih hc.2 (some page.EndCursor)
            (convertNodes fetch since page.Nodes allPRs (calls ++ [Call.graphqlQuery after])).1
            (convertNodes fetch since page.Nodes allPRs (calls ++ [Call.graphqlQuery after])).2.1
        refine ⟨r, ?_, ?_, herr, ?_, ?_⟩
        · rw [List.map_cons, graphqlLoop_continue fetch since page _ after allPRs calls hall hc.1,
            hrun]
        · rw [hprs, h1, takeWhile_of_all _ _ hall, stream_cons page,
            takeWhile_append_of_all _ _ _ hall]
          simp
        · rw [hfetch, h2, hsf, takeWhile_of_all _ _ hall, stream_cons page,
            takeWhile_append_of_all _ _ _ hall]
          simp
        · rw [h3, hreq] at hcount
          simp only [List.length_cons] at hcount ⊢
          omega

theorem normalise_MergedAt (fetch : Int → Except Error PR) (gqlPR : GqlPR) :
    (normalise fetch gqlPR).MergedAt = gqlPR.MergedAt := by
  unfold normalise convertNode
  cases hA : gqlPR.Author with
  | some author => rfl
  | none =>
    cases hF : fetch gqlPR.Number with
    | error err => rfl
    | ok restPR =>
      by_cases hne : restPR.Author = ""
      · simp [hne]
      · simp [hne]

theorem kept_of_not_before (since : Time) (gqlPR : GqlPR)
    (h : gqlPR.MergedAt.Before since = false) : kept since gqlPR = true := by
  simp [kept, h]

theorem kept_of_isZero (since : Time) (gqlPR : GqlPR) (h : since.IsZero = true) :
    kept since gqlPR = true := by
  simp [kept, h]

theorem kept_eq_of_set (since : Time) (gqlPR : GqlPR) (h : since.IsZero = false) :
    kept since gqlPR = decide (since.ns ≤ gqlPR.MergedAt.ns) := by
  simp only [kept, h, Time.Before, Bool.not_false, Bool.true_and]
  by_cases hlt : gqlPR.MergedAt.ns < since.ns
  · have hle : ¬ since.ns ≤ gqlPR.MergedAt.ns := by omega
    simp [hlt, hle]
  · have hle : since.ns ≤ gqlPR.MergedAt.ns := by omega
    simp [hlt, hle]

/-- Along a stream in descending merge-time order, the PRs before the first one
merged before a set bound are the PRs merged at or after the bound. -/
theorem takeWhile_kept_eq_filter (since : Time) (prs : List GqlPR) (hset : since.IsZero = false)
    (hdesc : descending prs) :
    prs.takeWhile (kept since) = prs.filter (fun gqlPR => decide (since.ns ≤ gqlPR.MergedAt.ns)) := by
  induction prs with
  | nil => rfl
  | cons gqlPR rest ih =>
    have hrest : descending rest := (List.pairwise_cons.mp hdesc).2
    have hle := (List.pairwise_cons.mp hdesc).1
    rw [List.takeWhile_cons, List.filter_cons, kept_eq_of_set since gqlPR hset]
    by_cases h : since.ns ≤ gqlPR.MergedAt.ns
    · simp only [h, decide_True, if_true]
      rw [ih hrest]
    · simp only [h, decide_False, Bool.false_eq_true, if_false]
      symm
      rw [List.filter_eq_nil_iff]
      intro later hmem
      have := hle later hmem
      simp only [decide_eq_true_eq]
      omega

theorem takeWhile_kept_of_isZero (since : Time) (prs : List GqlPR) (hzero : since.IsZero = true) :
    prs.takeWhile (kept since) = prs :=
  takeWhile_of_all _ _ (List.all_eq_true.mpr (fun gqlPR _ => kept_of_isZero since gqlPR hzero))

/-! ## The cursor paginator: claims C4 to C7 -/

/-- C4: for a set (non-zero) bound `since`, let `old` be the first PR of the
stream merged strictly before it: the pages `pre` before its page hold no such
PR (and, being followed by a page, report a next page), and in its page the PRs
`before` precede it. Whatever the provider would answer afterwards,
`FetchAllMergedPRsGraphQL` returns without error exactly the normalised records
of the PRs preceding `old` in page-then-position order, those of its own page
included; it issues one page request per page up to the page of `old` and none
after it; no returned record was merged before the bound, and a preceding PR
merged exactly at the bound is returned. -/
theorem FetchAllMergedPRsGraphQL_early_exit (fetch : Int → Except Error PR) (since : Time)
    (pre : List PullRequestsQuery) (page : PullRequestsQuery)
    (post : List (Except Error PullRequestsQuery)) (before : List GqlPR) (old : GqlPR)
    (later : List GqlPR)
    (hset : since.IsZero = false)
    (hpre : ∀ q ∈ pre, q.HasNextPage = true ∧ ∀ gqlPR ∈ q.Nodes, gqlPR.MergedAt.Before since = false)
    (hpage : page.Nodes = before ++ old :: later)
    (hbefore : ∀ gqlPR ∈ before, gqlPR.MergedAt.Before since = false)
    (hold : old.MergedAt.Before since = true) :
    ∃ r, FetchAllMergedPRsGraphQL fetch (pre.map Except.ok ++ Except.ok page :: post) since
          = Run.returned r
      ∧ r.err = none
      ∧ r.prs.elems = (stream pre ++ before).map (normalise fetch)
      ∧ pageRequests r.calls = pre.length + 1
      ∧ (∀ pr ∈ r.prs.elems, pr.MergedAt.Before since = false)
      ∧ (∀ gqlPR ∈ stream pre ++ before, gqlPR.MergedAt = since →
          normalise fetch gqlPR ∈ r.prs.elems) := by
  have hclean : ∀ q ∈ pre, q.HasNextPage = true ∧ q.Nodes.all (kept since) = true := by
    intro q hq
    exact ⟨(hpre q hq).1,
      List.all_eq_true.mpr (fun g hg => kept_of_not_before since g ((hpre q hq).2 g hg))⟩
  obtain ⟨after', allPRs', calls', hrun, hprs, -, hreq⟩ :=
    graphqlLoop_clean_pages fetch since pre (Except.ok page :: post) none none [] hclean
  have hkeptBefore : before.all (kept since) = true :=
    List.all_eq_true.mpr (fun g hg => kept_of_not_before since g (hbefore g hg))
  have hkeptOld : kept since old = false := by
    simp [kept, hset, hold]
  have hall : page.Nodes.all (kept since) = false := by
    rw [hpage, List.all_append, List.all_cons, hkeptOld]
    simp
  have htake : page.Nodes.takeWhile (kept since) = before := by
    rw [hpage, takeWhile_append_of_all _ _ _ hkeptBefore, List.takeWhile_cons, hkeptOld]
    simp
  obtain ⟨h1, -, h3, -⟩ := convertNodes_spec fetch since page.Nodes allPRs'
    (calls' ++ [Call.graphqlQuery after'])
  have hstop := graphqlLoop_stop fetch since page post after' allPRs' calls' (by simp [hall])
  have helems : (convertNodes fetch since page.Nodes allPRs'
      (calls' ++ [Call.graphqlQuery after'])).1.elems
        = (stream pre ++ before).map (normalise fetch) := by
    rw [h1, hprs, htake]
    simp [Slice.elems]
  refine ⟨{ prs := (convertNodes fetch since page.Nodes allPRs'
              (calls' ++ [Call.graphqlQuery after'])).1
            err := none
            calls := (convertNodes fetch since page.Nodes allPRs'
              (calls' ++ [Call.graphqlQuery after'])).2.1 }, ?_, rfl, helems, ?_, ?_, ?_⟩
  · unfold FetchAllMergedPRsGraphQL
    rw [hrun, hstop]
  · show pageRequests (convertNodes fetch since page.Nodes allPRs'
      (calls' ++ [Call.graphqlQuery after'])).2.1 = _
    rw [h3, pageRequests_append, hreq]
    simp [pageRequests, Call.isPageRequest]
  · intro pr hpr
    rw [helems] at hpr
    obtain ⟨g, hg, rfl⟩ := List.mem_map.mp hpr
    rw [normalise_MergedAt]
    rcases List.mem_append.mp hg with hg | hg
    · obtain ⟨q, hq, hgq⟩ := List.mem_flatMap.mp hg
      exact (hpre q hq).2 g hgq
    · exact hbefore g hg
  · intro g hg _
    rw [helems]
    exact List.mem_map_of_mem _ hg

theorem FetchAllMergedPRsGraphQL_early_exit_witness :
    ∃ r, FetchAllMergedPRsGraphQL failingFetch
          ([samplePage [sampleNode 9 300 (some sampleAuthor)] true].map Except.ok
            ++ Except.ok (samplePage [sampleNode 8 100 (some sampleAuthor),
                  sampleNode 7 50 (some sampleAuthor), sampleNode 6 200 none] true)
              :: [Except.ok (samplePage [sampleNode 5 400 none] false)]) ⟨100⟩
          = Run.returned r
      ∧ r.err = none
      ∧ r.prs.elems = (stream [samplePage [sampleNode 9 300 (some sampleAuthor)] true]
          ++ [sampleNode 8 100 (some sampleAuthor)]).map (normalise failingFetch)
      ∧ pageRequests r.calls = [samplePage [sampleNode 9 300 (some sampleAuthor)] true].length + 1
      ∧ (∀ pr ∈ r.prs.elems, pr.MergedAt.Before ⟨100⟩ = false)
      ∧ (∀ gqlPR ∈ stream [samplePage [sampleNode 9 300 (some sampleAuthor)] true]
            ++ [sampleNode 8 100 (some sampleAuthor)], gqlPR.MergedAt = ⟨100⟩ →
          normalise failingFetch gqlPR ∈ r.prs.elems) :=
  FetchAllMergedPRsGraphQL_early_exit failingFetch ⟨100⟩
    [samplePage [sampleNode 9 300 (some sampleAuthor)] true]
    (samplePage [sampleNode 8 100 (some sampleAuthor),
      sampleNode 7 50 (some sampleAuthor), sampleNode 6 200 none] true)
    [Except.ok (samplePage [sampleNode 5 400 none] false)]
    [sampleNode 8 100 (some sampleAuthor)] (sampleNode 7 50 (some sampleAuthor))
    [sampleNode 6 200 none]
    (by decide) (by decide) rfl (by decide) (by decide)

/-- C5: for every bound `since` and every well-chained sequence of pages, all
served without error, whose PRs are in descending merge-time order across the
stream, `FetchAllMergedPRsGraphQL` returns without error: for a set bound,
exactly the PRs of the stream merged at or after the bound, each once and in
stream order; for the zero (unset) bound, all PRs of all pages. In the scenario
of a first page of 50 PRs descending from `t0` to `t0` minus 10 days with the
set bound `t0` minus 5 days, the result is exactly the PRs of that page merged
at or after the bound and a single page request is issued. -/
theorem FetchAllMergedPRsGraphQL_since_filter (fetch : Int → Except Error PR) (since : Time) :
    (∀ pages : List PullRequestsQuery, wellChained pages = true → descending (stream pages) →
      ∃ r, FetchAllMergedPRsGraphQL fetch (pages.map Except.ok) since = Run.returned r
        ∧ r.err = none
        ∧ (since.IsZero = false →
            r.prs.elems = ((stream pages).filter
              (fun gqlPR => decide (since.ns ≤ gqlPR.MergedAt.ns))).map (normalise fetch))
        ∧ (since.IsZero = true → r.prs.elems = (stream pages).map (normalise fetch)))
      ∧ (∀ (t0 : Int) (page : PullRequestsQuery) (post : List (Except Error PullRequestsQuery)),
          page.Nodes.length = 50 → descending page.Nodes →
          (∀ first ∈ page.Nodes.head?, first.MergedAt.ns = t0) →
          (∀ last ∈ page.Nodes.getLast?, last.MergedAt.ns = t0 - 10 * 86400000000000) →
          since.ns = t0 - 5 * 86400000000000 → since.IsZero = false →
          ∃ r, FetchAllMergedPRsGraphQL fetch (Except.ok page :: post) since = Run.returned r
            ∧ r.err = none
            ∧ r.prs.elems = (page.Nodes.filter
                (fun gqlPR => decide (since.ns ≤ gqlPR.MergedAt.ns))).map (normalise fetch)
            ∧ pageRequests r.calls = 1) := by
  constructor
  · intro pages hchain hdesc
    obtain ⟨r, hrun, hprs, herr, -, -⟩ :=
      graphqlLoop_wellChained fetch since pages hchain none none []
    refine ⟨r, hrun, herr, ?_, ?_⟩
    · intro hset
      rw [hprs, takeWhile_kept_eq_filter since _ hset hdesc]
      simp [Slice.elems]
    · intro hzero
      rw [hprs, takeWhile_kept_of_isZero since _ hzero]
      simp [Slice.elems]
  · intro t0 page post hlen hdesc _ hlast hsince hset
    have hne : page.Nodes ≠ [] := by
      intro h
      rw [h] at hlen
      simp at hlen
    have hmem : page.Nodes.getLast hne ∈ page.Nodes := List.getLast_mem hne
    have hold : kept since (page.Nodes.getLast hne) = false := by
      have hns := hlast (page.Nodes.getLast hne) (by simp [List.getLast?_eq_getLast _ hne])
      rw [kept_eq_of_set since _ hset, hns, hsince]
      apply decide_eq_false
      omega
    have hall : page.Nodes.all (kept since) = false := by
      cases h : page.Nodes.all (kept since) with
      | false => rfl
      | true =>
        have := List.all_eq_true.mp h _ hmem
        rw [hold] at this
        cases this
    obtain ⟨h1, -, h3, -⟩ := convertNodes_spec fetch since page.Nodes none
      ([] ++ [Call.graphqlQuery none])
    have hstop := graphqlLoop_stop fetch since page post none none [] (by simp [hall])
    refine ⟨{ prs := (convertNodes fetch since page.Nodes none
                ([] ++ [Call.graphqlQuery none])).1
              err := none
              calls := (convertNodes fetch since page.Nodes none
                ([] ++ [Call.graphqlQuery none])).2.1 }, hstop, rfl, ?_, ?_⟩
    · show (convertNodes fetch since page.Nodes none ([] ++ [Call.graphqlQuery none])).1.elems = _
      rw [h1, takeWhile_kept_eq_filter since _ hset hdesc]
      simp [Slice.elems]
    · show pageRequests (convertNodes fetch since page.Nodes none
        ([] ++ [Call.graphqlQuery none])).2.1 = _
      rw [h3]
      rfl

theorem FetchAllMergedPRsGraphQL_since_filter_witness :
    (∃ r, FetchAllMergedPRsGraphQL failingFetch (samplePages.map Except.ok) ⟨100⟩ = Run.returned r
        ∧ r.err = none
        ∧ ((⟨100⟩ : Time).IsZero = false →
            r.prs.elems = ((stream samplePages).filter
              (fun gqlPR => decide ((⟨100⟩ : Time).ns ≤ gqlPR.MergedAt.ns))).map
                (normalise failingFetch))
        ∧ ((⟨100⟩ : Time).IsZero = true →
            r.prs.elems = (stream samplePages).map (normalise failingFetch)))
      ∧ (∃ r, FetchAllMergedPRsGraphQL failingFetch
            (Except.ok (samplePage (fiftyNodes 1000000000000000000) true) :: [])
            ⟨1000000000000000000 - 5 * 86400000000000⟩ = Run.returned r
          ∧ r.err = none
          ∧ r.prs.elems = ((samplePage (fiftyNodes 1000000000000000000) true).Nodes.filter
              (fun gqlPR => decide
                ((⟨1000000000000000000 - 5 * 86400000000000⟩ : Time).ns ≤ gqlPR.MergedAt.ns))).map
                (normalise failingFetch)
          ∧ pageRequests r.calls = 1) :=
  ⟨(FetchAllMergedPRsGraphQL_since_filter failingFetch ⟨100⟩).1 samplePages (by decide)
      (by decide),
   (FetchAllMergedPRsGraphQL_since_filter failingFetch
      ⟨1000000000000000000 - 5 * 86400000000000⟩).2 1000000000000000000
      (samplePage (fiftyNodes 1000000000000000000) true) [] (by decide) (by decide)
      (by decide) (by decide) (by decide) (by decide)⟩

/-! ## Lemmas on the search paginator -/

theorem dispatched_of_numbered (issues : List Issue) (h : numbered issues = true) :
    dispatched issues = some (prHits issues) := by
  induction issues with
  | nil => rfl
  | cons issue rest ih =>
    have hcons : (issue.PullRequestLinks.isNone || issue.Number.isSome) = true
        ∧ numbered rest = true := by
      simpa [numbered, List.all_cons] using h
    have hrest := ih hcons.2
    cases hL : issue.PullRequestLinks with
    | none => simp [dispatched, prHits, hL, List.filterMap_cons] at hrest ⊢; exact hrest
    | some links =>
      cases hN : issue.Number with
      | none => simp [hL, hN] at hcons
      | some prNumber =>
        simp [dispatched, prHits, hL, hN, List.filterMap_cons] at hrest ⊢
        exact hrest

theorem searchLoop_error (fetch : Int → Except Error PR) (err : Error)
    (rest : List (Except Error SearchResponse)) (scheds : List (List Nat)) (page : Int)
    (allPRs : Slice PR) (calls : List Call) :
    searchLoop fetch (.error err :: rest) scheds page allPRs calls
      = Run.returned
          { prs := allPRs, err := some (Error.searchPRs err)
            calls := calls ++ [Call.searchIssues page] } := rfl

theorem searchLoop_ok (fetch : Int → Except Error PR) (result : SearchResponse)
    (rest : List (Except Error SearchResponse)) (scheds : List (List Nat)) (page : Int)
    (allPRs : Slice PR) (calls : List Call) (h : numbered result.Issues = true) :
    searchLoop fetch (.ok result :: rest) scheds page allPRs calls
      = if result.NextPage = 0 then
          Run.returned
            { prs := collectPRs fetch
                (completionOrder (prHits result.Issues) (scheds.headD [])) allPRs
              err := none
              calls := calls ++ [Call.searchIssues page]
                ++ (completionOrder (prHits result.Issues) (scheds.headD [])).map
                    Call.fetchSinglePR }
        else
          searchLoop fetch rest scheds.tail result.NextPage
            (collectPRs fetch (completionOrder (prHits result.Issues) (scheds.headD [])) allPRs)
            (calls ++ [Call.searchIssues page]
              ++ (completionOrder (prHits result.Issues) (scheds.headD [])).map
                  Call.fetchSinglePR) := by
  rw [searchLoop]
  simp only [dispatched_of_numbered _ h]

theorem pageRequests_fetches (nums : List Int) :
    pageRequests (nums.map Call.fetchSinglePR) = 0 := by
  induction nums with
  | nil => rfl
  | cons num rest ih => simp [pageRequests, Call.isPageRequest]

theorem accumulated_cons (fetch : Int → Except Error PR) (page : SearchResponse)
    (rest : List SearchResponse) (scheds : List (List Nat)) :
    accumulated fetch (page :: rest) scheds
      = (completionOrder (prHits page.Issues) (scheds.headD [])).filterMap (fetchedPR fetch)
        ++ accumulated fetch rest scheds.tail := rfl

theorem accumulated_perm (fetch : Int → Except Error PR) (pages : List SearchResponse)
    (scheds : List (List Nat)) :
    (accumulated fetch pages scheds).Perm ((allHits pages).filterMap (fetchedPR fetch)) := by
  induction pages generalizing scheds with
  | nil => exact List.Perm.refl _
  | cons page rest ih =>
    have hsplit : allHits (page :: rest) = prHits page.Issues ++ allHits rest := rfl
    rw [hsplit, List.filterMap_append]
    exact ((completionOrder_perm _ _).filterMap _).append (ih scheds.tail)

/-- Search pages that name a next page are consumed whole: the loop goes on
with the rest of the script. -/
theorem searchLoop_full_pages (fetch : Int → Except Error PR) (pre : List SearchResponse)
    (rest : List (Except Error SearchResponse)) (scheds : List (List Nat)) (page : Int)
    (allPRs : Slice PR) (calls : List Call)
    (hpre : ∀ q ∈ pre, q.NextPage ≠ 0 ∧ numbered q.Issues = true) :
    ∃ scheds' page' allPRs' calls',
      searchLoop fetch (pre.map Except.ok ++ rest) scheds page allPRs calls
          = searchLoop fetch rest scheds' page' allPRs' calls'
        ∧ allPRs'.elems = allPRs.elems ++ accumulated fetch pre scheds
        ∧ pageRequests calls' = pageRequests calls + pre.length := by
  induction pre generalizing scheds page allPRs calls with
  | nil => exact ⟨scheds, page, allPRs, calls, rfl, by simp [accumulated], rfl⟩
  | cons q pages ih =>
    obtain ⟨hnext, hnum⟩ := hpre q (List.mem_cons_self _ _)
    obtain ⟨scheds', page', allPRs', calls', hrun, hprs, hreq⟩ :=
      ih scheds.tail q.NextPage
        (collectPRs fetch (completionOrder (prHits q.Issues) (scheds.headD [])) allPRs)
        (calls ++ [Call.searchIssues page]
          ++ (completionOrder (prHits q.Issues) (scheds.headD [])).map Call.fetchSinglePR)
        (fun q' hq' => hpre q' (List.mem_cons_of_mem _ hq'))
    refine ⟨scheds', page', allPRs', calls', ?_, ?_, ?_⟩
    · rw [List.map_cons, List.cons_append, searchLoop_ok fetch q _ scheds page allPRs calls hnum,
        if_neg hnext, hrun]
    · rw [hprs, collectPRs_elems, accumulated_cons fetch q, List.append_assoc]
    · rw [hreq, pageRequests_append, pageRequests_append, pageRequests_fetches, List.length_cons]
      simp [pageRequests, Call.isPageRequest]
      omega

/-- A well-chained sequence of search pages, all served without error: the
paginator returns without error the records accumulated over all pages. -/
theorem searchLoop_chained (fetch : Int → Except Error PR) (pages : List SearchResponse)
    (hchain : searchChained pages = true) (hnum : ∀ q ∈ pages, numbered q.Issues = true)
    (scheds : List (List Nat)) (page : Int) (allPRs : Slice PR) (calls : List Call) :
    ∃ r, searchLoop fetch (pages.map Except.ok) scheds page allPRs calls = Run.returned r
      ∧ r.prs.elems = allPRs.elems ++ accumulated fetch pages scheds
      ∧ r.err = none
      ∧ pageRequests r.calls = pageRequests calls + pages.length := by
  induction pages generalizing scheds page allPRs calls with
  | nil => simp [searchChained] at hchain
  | cons q rest ih =>
    have hq := hnum q (List.mem_cons_self _ _)
    have hreq : pageRequests (calls ++ [Call.searchIssues page]
        ++ (completionOrder (prHits q.Issues) (scheds.headD [])).map Call.fetchSinglePR)
          = pageRequests calls + 1 := by
      rw [pageRequests_append, pageRequests_append, pageRequests_fetches]
      rfl
    cases rest with
    | nil =>
      have hlast : q.NextPage = 0 := by simpa [searchChained] using hchain
      refine ⟨{ prs := collectPRs fetch
                  (completionOrder (prHits q.Issues) (scheds.headD [])) allPRs
                err := none
                calls := calls ++ [Call.searchIssues page]
                  ++ (completionOrder (prHits q.Issues) (scheds.headD [])).map
                      Call.fetchSinglePR }, ?_, ?_, rfl, ?_⟩
      · rw [List.map_cons, searchLoop_ok fetch q _ scheds page allPRs calls hq, if_pos hlast]
      · show (collectPRs fetch _ allPRs).elems = _
        rw [collectPRs_elems]
        simp [accumulated]
      · show pageRequests (calls ++ [Call.searchIssues page]
          ++ (completionOrder (prHits q.Issues) (scheds.headD [])).map Call.fetchSinglePR) = _
        rw [hreq]
        rfl
    | cons next rest' =>
      have hc : q.NextPage ≠ 0 ∧ searchChained (next :: rest') = true := by
        simpa [searchChained] using hchain
      obtain ⟨r, hrun, hprs, herr, hcount⟩ :=
        ih hc.2 (fun q' hq' => hnum q' (List.mem_cons_of_mem _ hq')) scheds.tail q.NextPage
          (collectPRs fetch (completionOrder (prHits q.Issues) (scheds.headD [])) allPRs)
          (calls ++ [Call.searchIssues page]
            ++ (completionOrder (prHits q.Issues) (scheds.headD [])).map Call.fetchSinglePR)
      refine ⟨r, ?_, ?_, herr, ?_⟩
      · rw [List.map_cons, searchLoop_ok fetch q _ scheds page allPRs calls hq, if_neg hc.1, hrun]
      · rw [hprs, collectPRs_elems, accumulated_cons fetch q, List.append_assoc]
      · rw [hcount, hreq]
        simp only [List.length_cons]
        omega

theorem normalise_unknown (fetch : Int → Except Error PR) (gqlPR : GqlPR)
    (habsent : gqlPR.Author = none)
    (hfetch : fetchFails fetch gqlPR.Number = true
      ∨ ∃ restPR, fetch gqlPR.Number = .ok restPR ∧ restPR.Author = "") :
    (normalise fetch gqlPR).Author = "[unknown]" ∧ (normalise fetch gqlPR).AuthorType = "user" := by
  unfold normalise convertNode
  rw [habsent]
  cases hF : fetch gqlPR.Number with
  | error err => exact ⟨rfl, rfl⟩
  | ok restPR =>
    rcases hfetch with hfail | ⟨restPR', hok, hauthor⟩
    · simp [fetchFails, hF] at hfail
    · rw [hF] at hok
      cases hok
      simp [hauthor]

/-! ## Page-level failures: claim C6 -/

/-- C6: in each of the two paginators, when the pages `pre` were served in full
(each names a next page; for the cursor paginator none holds a PR failing the
`since` test) and the next page request fails with `err`, the operation returns
an error wrapping `err` together with exactly the records accumulated from
`pre` (none when `pre` is empty), and the failed request is its last page
request, whatever the provider would answer afterwards. -/
theorem page_failure_aborts (fetch : Int → Except Error PR) (since : Time) (err : Error) :
    (∀ (pre : List PullRequestsQuery) (post : List (Except Error PullRequestsQuery)),
        (∀ q ∈ pre, q.HasNextPage = true ∧ ∀ gqlPR ∈ q.Nodes, kept since gqlPR = true) →
        ∃ r, FetchAllMergedPRsGraphQL fetch (pre.map Except.ok ++ Except.error err :: post) since
              = Run.returned r
          ∧ r.err = some (Error.graphQLQuery err)
          ∧ r.err.bind Error.Unwrap = some err
          ∧ r.prs.elems = (stream pre).map (normalise fetch)
          ∧ (pre = [] → r.prs = none)
          ∧ pageRequests r.calls = pre.length + 1)
      ∧ (∀ (pre : List SearchResponse) (post : List (Except Error SearchResponse))
          (scheds : List (List Nat)),
          (∀ q ∈ pre, q.NextPage ≠ 0 ∧ numbered q.Issues = true) →
          ∃ r, FetchAllMergedPRs fetch (pre.map Except.ok ++ Except.error err :: post) scheds since
                = Run.returned r
            ∧ r.err = some (Error.searchPRs err)
            ∧ r.err.bind Error.Unwrap = some err
            ∧ r.prs.elems = accumulated fetch pre scheds
            ∧ r.prs.elems.Perm ((allHits pre).filterMap (fetchedPR fetch))
            ∧ (pre = [] → r.prs = none)
            ∧ pageRequests r.calls = pre.length + 1) := by
  constructor
  · intro pre post hpre
    have hclean : ∀ q ∈ pre, q.HasNextPage = true ∧ q.Nodes.all (kept since) = true :=
      fun q hq => ⟨(hpre q hq).1, List.all_eq_true.mpr (hpre q hq).2⟩
    cases pre with
    | nil =>
      exact ⟨{ prs := none, err := some (Error.graphQLQuery err)
               calls := [] ++ [Call.graphqlQuery none] }, rfl, rfl, rfl, rfl, fun _ => rfl, rfl⟩
    | cons page pages =>
      obtain ⟨after', allPRs', calls', hrun, hprs, -, hreq⟩ :=
        graphqlLoop_clean_pages fetch since (page :: pages) (Except.error err :: post)
          none none [] hclean
      refine ⟨{ prs := allPRs', err := some (Error.graphQLQuery err)
                calls := calls' ++ [Call.graphqlQuery after'] }, ?_, rfl, rfl, ?_, ?_, ?_⟩
      · unfold FetchAllMergedPRsGraphQL
        rw [hrun, graphqlLoop_error]
      · show allPRs'.elems = _
        rw [hprs]
        simp [Slice.elems]
      · intro h
        cases h
      · show pageRequests (calls' ++ [Call.graphqlQuery after']) = _
        rw [pageRequests_append, hreq]
        simp [pageRequests, Call.isPageRequest]
  · intro pre post scheds hpre
    cases pre with
    | nil =>
      exact ⟨{ prs := none, err := some (Error.searchPRs err)
               calls := [] ++ [Call.searchIssues 0] }, rfl, rfl, rfl, rfl, List.Perm.refl _,
        fun _ => rfl, rfl⟩
    | cons page pages =>
      obtain ⟨scheds', page', allPRs', calls', hrun, hprs, hreq⟩ :=
        searchLoop_full_pages fetch (page :: pages) (Except.error err :: post) scheds 0 none []
          hpre
      have helems : allPRs'.elems = accumulated fetch (page :: pages) scheds := by
        rw [hprs]
        simp [Slice.elems]
      refine ⟨{ prs := allPRs', err := some (Error.searchPRs err)
                calls := calls' ++ [Call.searchIssues page'] }, ?_, rfl, rfl, helems, ?_, ?_, ?_⟩
      · unfold FetchAllMergedPRs
        rw [hrun, searchLoop_error]
      · show allPRs'.elems.Perm _
        rw [helems]
        exact accumulated_perm fetch _ scheds
      · intro h
        cases h
      · show pageRequests (calls' ++ [Call.searchIssues page']) = _
        rw [pageRequests_append, hreq]
        simp [pageRequests, Call.isPageRequest]

theorem page_failure_aborts_witness :
    (∃ r, FetchAllMergedPRsGraphQL failingFetch
          ([samplePage [sampleNode 9 300 none] true].map Except.ok
            ++ Except.error (Error.provider "bad gateway") :: []) ⟨100⟩ = Run.returned r
        ∧ r.err = some (Error.graphQLQuery (Error.provider "bad gateway"))
        ∧ r.err.bind Error.Unwrap = some (Error.provider "bad gateway")
        ∧ r.prs.elems = (stream [samplePage [sampleNode 9 300 none] true]).map
            (normalise failingFetch)
        ∧ ([samplePage [sampleNode 9 300 none] true] = [] → r.prs = none)
        ∧ pageRequests r.calls = [samplePage [sampleNode 9 300 none] true].length + 1)
      ∧ (∃ r, FetchAllMergedPRs flakyFetch
            ((sampleSearchPages.take 1).map Except.ok
              ++ Except.error (Error.provider "bad gateway") :: []) [[1, 0, 0]] ⟨100⟩
            = Run.returned r
          ∧ r.err = some (Error.searchPRs (Error.provider "bad gateway"))
          ∧ r.err.bind Error.Unwrap = some (Error.provider "bad gateway")
          ∧ r.prs.elems = accumulated flakyFetch (sampleSearchPages.take 1) [[1, 0, 0]]
          ∧ r.prs.elems.Perm ((allHits (sampleSearchPages.take 1)).filterMap
              (fetchedPR flakyFetch))
          ∧ (sampleSearchPages.take 1 = [] → r.prs = none)
          ∧ pageRequests r.calls = (sampleSearchPages.take 1).length + 1) :=
  ⟨(page_failure_aborts failingFetch ⟨100⟩ (Error.provider "bad gateway")).1
      [samplePage [sampleNode 9 300 none] true] [] (by decide),
   (page_failure_aborts flakyFetch ⟨100⟩ (Error.provider "bad gateway")).2
      (sampleSearchPages.take 1) [] [[1, 0, 0]] (by decide)⟩

/-! ## Author fallback: claim C7 -/

/-- C7: on a well-chained sequence of pages, all served without error,
`FetchAllMergedPRsGraphQL` returns the normalised record of every PR it
converts (all PRs of the stream for an unset bound, otherwise those before the
first one failing the `since` test), and its supplementary per-PR fetches are,
in order, one fetch of the number of each converted PR whose author is absent:
exactly one for such a PR, none for a PR whose author is present. When the
supplementary fetch of a converted PR without author fails, or delivers a
record without author, the PR is still in the result, with author `[unknown]`
and classification `user`. -/
theorem FetchAllMergedPRsGraphQL_author_fallback (fetch : Int → Except Error PR) (since : Time)
    (pages : List PullRequestsQuery) (hchain : wellChained pages = true) :
    ∃ r, FetchAllMergedPRsGraphQL fetch (pages.map Except.ok) since = Run.returned r
      ∧ r.prs.elems = (converted since pages).map (normalise fetch)
      ∧ singleFetches r.calls
        = ((converted since pages).filter authorAbsent).map (fun gqlPR => gqlPR.Number)
      ∧ (since.IsZero = true → converted since pages = stream pages)
      ∧ ∀ gqlPR ∈ converted since pages,
          (convertNode fetch gqlPR).2
              = (if gqlPR.Author.isNone then [Call.fetchSinglePR gqlPR.Number] else [])
            ∧ (gqlPR.Author = none →
                (fetchFails fetch gqlPR.Number = true
                  ∨ ∃ restPR, fetch gqlPR.Number = .ok restPR ∧ restPR.Author = "") →
                normalise fetch gqlPR ∈ r.prs.elems
                  ∧ (normalise fetch gqlPR).Author = "[unknown]"
                  ∧ (normalise fetch gqlPR).AuthorType = "user") := by
  obtain ⟨r, hrun, hprs, -, hfetch, -⟩ :=
    graphqlLoop_wellChained fetch since pages hchain none none []
  have helems : r.prs.elems = (converted since pages).map (normalise fetch) := by
    rw [hprs]
    simp [Slice.elems, converted]
  refine ⟨r, hrun, helems, ?_, ?_, ?_⟩
  · rw [hfetch]
    simp [singleFetches, converted]
  · intro hzero
    exact takeWhile_kept_of_isZero since _ hzero
  · intro gqlPR hmem
    refine ⟨convertNode_calls fetch gqlPR, ?_⟩
    intro habsent hfail
    refine ⟨?_, normalise_unknown fetch gqlPR habsent hfail⟩
    rw [helems]
    exact List.mem_map_of_mem _ hmem

theorem FetchAllMergedPRsGraphQL_author_fallback_witness :
    wellChained samplePages = true
      ∧ ∃ r, FetchAllMergedPRsGraphQL failingFetch (samplePages.map Except.ok) ⟨100⟩
            = Run.returned r
        ∧ r.prs.elems = (converted ⟨100⟩ samplePages).map (normalise failingFetch)
        ∧ singleFetches r.calls
          = ((converted ⟨100⟩ samplePages).filter authorAbsent).map (fun gqlPR => gqlPR.Number)
        ∧ ((⟨100⟩ : Time).IsZero = true → converted ⟨100⟩ samplePages = stream samplePages)
        ∧ ∀ gqlPR ∈ converted ⟨100⟩ samplePages,
            (convertNode failingFetch gqlPR).2
                = (if gqlPR.Author.isNone then [Call.fetchSinglePR gqlPR.Number] else [])
              ∧ (gqlPR.Author = none →
                  (fetchFails failingFetch gqlPR.Number = true
                    ∨ ∃ restPR, failingFetch gqlPR.Number = .ok restPR ∧ restPR.Author = "") →
                  normalise failingFetch gqlPR ∈ r.prs.elems
                    ∧ (normalise failingFetch gqlPR).Author = "[unknown]"
                    ∧ (normalise failingFetch gqlPR).AuthorType = "user") :=
  ⟨by decide, FetchAllMergedPRsGraphQL_author_fallback failingFetch ⟨100⟩ samplePages (by decide)⟩

/-! ## The search paginator: claim C8 -/

theorem prHits_length (issues : List Issue) (h : numbered issues = true) :
    (prHits issues).length
        + (issues.filter (fun issue => issue.PullRequestLinks.isNone)).length
      = issues.length := by
  induction issues with
  | nil => rfl
  | cons issue rest ih =>
    have hcons : (issue.PullRequestLinks.isNone || issue.Number.isSome) = true
        ∧ numbered rest = true := by
      simpa [numbered, List.all_cons] using h
    have hrest := ih hcons.2
    cases hL : issue.PullRequestLinks with
    | none =>
      simp only [prHits, List.filterMap_cons, List.filter_cons, hL] at hrest ⊢
      simp only [Option.isSome_none, Option.isNone_none, if_true, List.length_cons]
      simp only [Bool.false_eq_true, if_false]
      omega
    | some links =>
      cases hN : issue.Number with
      | none => simp [hL, hN] at hcons
      | some prNumber =>
        simp only [prHits, List.filterMap_cons, List.filter_cons, hL, hN] at hrest ⊢
        simp only [Option.isSome_some, Option.isNone_some, if_true, List.length_cons]
        simp only [Bool.false_eq_true, if_false]
        omega

theorem allHits_length (pages : List SearchResponse)
    (hnum : ∀ q ∈ pages, numbered q.Issues = true) :
    (allHits pages).length
        + ((pages.flatMap (fun q => q.Issues)).filter
            (fun issue => issue.PullRequestLinks.isNone)).length
      = (pages.flatMap (fun q => q.Issues)).length := by
  induction pages with
  | nil => rfl
  | cons page rest ih =>
    have h1 := prHits_length page.Issues (hnum page (List.mem_cons_self _ _))
    have h2 := ih (fun q hq => hnum q (List.mem_cons_of_mem _ hq))
    have hsplit : allHits (page :: rest) = prHits page.Issues ++ allHits rest := rfl
    have hflat : (page :: rest).flatMap (fun q => q.Issues)
        = page.Issues ++ rest.flatMap (fun q => q.Issues) := rfl
    rw [hsplit, hflat, List.filter_append, List.length_append, List.length_append,
      List.length_append]
    omega

theorem filterMap_fetchedPR_length (fetch : Int → Except Error PR) (nums : List Int)
    (hok : ∀ num, fetchFails fetch num = false) :
    (nums.filterMap (fetchedPR fetch)).length = nums.length := by
  have hsum := outcomes_length fetch nums
  have hnone : nums.filterMap (fetchError fetch) = [] := by
    rw [List.filterMap_eq_nil_iff]
    intro num _
    exact (fetchError_eq_none_iff fetch num).mpr (hok num)
  rw [hnone] at hsum
  simpa using hsum

/-- C8: for every well-chained sequence of search pages, all served without
error and with the number on each pull-request hit, every per-PR fetch outcome
and every completion order, `FetchAllMergedPRs` returns a nil error and, up to
order, exactly one record for each hit that is a pull request and whose fetch
succeeded: other hits contribute nothing and failed fetches are skipped. So 150
hits over 2 pages, 5 of them not pull requests and no fetch failing, yield 145
records. -/
theorem FetchAllMergedPRs_best_effort (fetch : Int → Except Error PR)
    (pages : List SearchResponse) (scheds : List (List Nat)) (since : Time)
    (hchain : searchChained pages = true) (hnum : ∀ q ∈ pages, numbered q.Issues = true) :
    ∃ r, FetchAllMergedPRs fetch (pages.map Except.ok) scheds since = Run.returned r
      ∧ r.err = none
      ∧ r.prs.elems.Perm ((allHits pages).filterMap (fetchedPR fetch))
      ∧ (pages.length = 2 → (pages.flatMap (fun q => q.Issues)).length = 150 →
          ((pages.flatMap (fun q => q.Issues)).filter
            (fun issue => issue.PullRequestLinks.isNone)).length = 5 →
          (∀ num, fetchFails fetch num = false) → r.prs.len = 145) := by
  obtain ⟨r, hrun, hprs, herr, -⟩ := searchLoop_chained fetch pages hchain hnum scheds 0 none []
  have helems : r.prs.elems = accumulated fetch pages scheds := by
    rw [hprs]
    simp [Slice.elems]
  have hperm : r.prs.elems.Perm ((allHits pages).filterMap (fetchedPR fetch)) := by
    rw [helems]
    exact accumulated_perm fetch pages scheds
  refine ⟨r, hrun, herr, hperm, ?_⟩
  intro _ htotal hplain hok
  have hlen := allHits_length pages hnum
  rw [Slice.len, hperm.length_eq, filterMap_fetchedPR_length fetch _ hok]
  omega

set_option maxRecDepth 100000 in
theorem FetchAllMergedPRs_best_effort_witness :
    (searchChained scenarioSearchPages = true
      ∧ ∀ q ∈ scenarioSearchPages, numbered q.Issues = true)
      ∧ ∃ r, FetchAllMergedPRs steadyFetch (scenarioSearchPages.map Except.ok) [[3, 1], [0, 2]]
              Time.zero = Run.returned r
          ∧ r.err = none
          ∧ r.prs.elems.Perm ((allHits scenarioSearchPages).filterMap (fetchedPR steadyFetch))
          ∧ r.prs.len = 145 := by
  refine ⟨⟨by decide, by decide⟩, ?_⟩
  obtain ⟨r, hrun, herr, hperm, hscenario⟩ :=
    FetchAllMergedPRs_best_effort steadyFetch scenarioSearchPages [[3, 1], [0, 2]] Time.zero
      (by decide) (by decide)
  exact ⟨r, hrun, herr, hperm,
    hscenario (by decide) (by decide) (by decide) (fun _ => rfl)⟩

/-! ## The normaliser: claims C9 and C10 -/

theorem sameCommits_convert (commits : List RepositoryCommit) (nodes : List GqlCommitNode)
    (h : List.Forall₂ sameCommit commits nodes) :
    (commits.filterMap convertCommit).map
        (fun commit => { commit with Email := "", Parents := [] })
      = nodes.map (fun commitNode =>
          ({ SHA := commitNode.Commit.OID
             Message := TrimSpace commitNode.Commit.Message
             Author := commitNode.Commit.Author.Name
             Email := ""
             Date := commitNode.Commit.AuthoredDate
             Parents := [] } : PRCommit)) := by
  induction h with
  | nil => rfl
  | cons hsame _ ih =>
    obtain ⟨hsha, c, author, hc, hmsg, hauthor, hname, hdate⟩ := hsame
    simp only [List.filterMap_cons, convertCommit, hc, hauthor, hsha, hmsg, hname, hdate,
      getString, List.map_cons, ih]

/-- C9 (amended): for every PR with an author whose provider data are the same
in the REST shape and in the bulk-query shape, `convertGitHubPR` builds a record
and the record built by `FetchAllMergedPRsGraphQL` equals it on every attribute
the bulk-query shape carries: number, title, body, URL, merge time, author,
author URL, classification, and for each commit hash, trimmed message, author
name and date. The merge-commit hash, the commit author emails and the commit
parents are empty in the record of the cursor paginator. -/
theorem normalise_eq_convertGitHubPR (fetch : Int → Except Error PR) (ghPR : PullRequest)
    (commits : List RepositoryCommit) (gqlPR : GqlPR)
    (hsame : sameProviderData ghPR commits gqlPR) (hauthor : gqlPR.Author.isSome = true) :
    ∃ pr, convertGitHubPR ghPR commits = some pr
      ∧ normalise fetch gqlPR = withoutRestOnly pr := by
  obtain ⟨hnum, htitle, hbody, hurl, hmerged, hauth, hcommits⟩ := hsame
  cases hA : gqlPR.Author with
  | none => simp [hA] at hauthor
  | some author =>
    cases hU : ghPR.User with
    | none => simp [sameAuthor, hA, hU] at hauth
    | some user =>
      rw [hA, hU] at hauth
      obtain ⟨hlogin, hhtml, htype⟩ := hauth
      refine ⟨_, by simp only [convertGitHubPR, hnum, hU]; rfl, ?_⟩
      have hc := sameCommits_convert commits gqlPR.Commits hcommits
      simp only [normalise, convertNode, hA, withoutRestOnly, htitle, hbody, hurl, hmerged,
        hlogin, hhtml, htype, getString, hc]
      cases hM : ghPR.MergeCommitSHA <;>
        by_cases h1 : author.Typename = "User" <;>
        by_cases h2 : author.Typename = "Organization" <;>
        by_cases h3 : author.Typename = "Bot" <;>
        simp_all

theorem sampleData_same (author : GqlAuthor) (user : User)
    (h : sameAuthor (some user) (some author)) :
    sameProviderData (sampleGhPR (some user)) sampleGhCommits (sampleGqlPR (some author)) :=
  ⟨rfl, rfl, rfl, rfl, rfl, h,
    List.Forall₂.cons ⟨rfl, _, _, rfl, rfl, rfl, rfl, rfl⟩ List.Forall₂.nil⟩

theorem normalise_eq_convertGitHubPR_witness :
    sameProviderData (sampleGhPR (some sampleUser)) sampleGhCommits (sampleGqlPR (some sampleAuthor))
      ∧ (sampleGqlPR (some sampleAuthor)).Author.isSome = true
      ∧ ∃ pr, convertGitHubPR (sampleGhPR (some sampleUser)) sampleGhCommits = some pr
          ∧ normalise failingFetch (sampleGqlPR (some sampleAuthor)) = withoutRestOnly pr :=
  ⟨sampleData_same sampleAuthor sampleUser ⟨rfl, rfl, rfl⟩, rfl,
    normalise_eq_convertGitHubPR failingFetch (sampleGhPR (some sampleUser)) sampleGhCommits
      (sampleGqlPR (some sampleAuthor)) (sampleData_same sampleAuthor sampleUser ⟨rfl, rfl, rfl⟩)
      rfl⟩

/-- C9 as stated fails. A merged PR with the same data in both shapes gets, on
the per-PR path, its merge-commit hash, the email of its commit author and the
parents of its commit, and on the cursor path none of them, so the two records
differ. A PR without author in both shapes gets an empty author on the per-PR
path and, when the supplementary fetch fails, the author `[unknown]` on the
cursor path. -/
theorem normalise_ne_convertGitHubPR :
    (sameProviderData (sampleGhPR (some sampleUser)) sampleGhCommits
        (sampleGqlPR (some sampleAuthor))
      ∧ convertGitHubPR (sampleGhPR (some sampleUser)) sampleGhCommits
          ≠ some (normalise failingFetch (sampleGqlPR (some sampleAuthor)))
      ∧ (convertGitHubPR (sampleGhPR (some sampleUser)) sampleGhCommits).map
            (fun pr => (pr.MergeCommit, pr.Commits.map (fun c => (c.Email, c.Parents))))
          = some ("abc123", [("mona@example.com", ["c0"])])
      ∧ ((normalise failingFetch (sampleGqlPR (some sampleAuthor))).MergeCommit,
          (normalise failingFetch (sampleGqlPR (some sampleAuthor))).Commits.map
            (fun c => (c.Email, c.Parents))) = ("", [("", [])]))
      ∧ (sameProviderData (sampleGhPR none) sampleGhCommits (sampleGqlPR none)
        ∧ (convertGitHubPR (sampleGhPR none) sampleGhCommits).map
              (fun pr => (pr.Author, pr.AuthorType)) = some ("", "")
        ∧ ((normalise failingFetch (sampleGqlPR none)).Author,
            (normalise failingFetch (sampleGqlPR none)).AuthorType) = ("[unknown]", "user")) :=
  ⟨⟨sampleData_same sampleAuthor sampleUser ⟨rfl, rfl, rfl⟩, by decide, by decide, by decide⟩,
   ⟨⟨rfl, rfl, rfl, rfl, rfl, trivial,
      List.Forall₂.cons ⟨rfl, _, _, rfl, rfl, rfl, rfl, rfl⟩ List.Forall₂.nil⟩,
    by decide, by decide⟩⟩

/-- C10 (amended): for every raw pull request that carries a number and has a
user object, with any or no user type tag, `convertGitHubPR` builds a record
whose author classification is one of `user`, `organization`, `bot`; it is
`organization` exactly for the tag `Organization`, `bot` exactly for the tag
`Bot`, and `user` for every other tag and for an absent tag. -/
theorem convertGitHubPR_authorType (ghPR : PullRequest) (commits : List RepositoryCommit)
    (number : Int) (user : User) (hnumber : ghPR.Number = some number)
    (huser : ghPR.User = some user) :
    ∃ pr, convertGitHubPR ghPR commits = some pr
      ∧ (pr.AuthorType = "user" ∨ pr.AuthorType = "organization" ∨ pr.AuthorType = "bot")
      ∧ (pr.AuthorType = "organization" ↔ user.Type_ = some "Organization")
      ∧ (pr.AuthorType = "bot" ↔ user.Type_ = some "Bot")
      ∧ (user.Type_ = none → pr.AuthorType = "user")
      ∧ (∀ tag, user.Type_ = some tag → tag ≠ "Organization" → tag ≠ "Bot" →
          pr.AuthorType = "user") := by
  obtain ⟨pr, hpr, htype⟩ : ∃ pr, convertGitHubPR ghPR commits = some pr
      ∧ pr.AuthorType
        = (if getString user.Type_ = "User" then "user"
           else if getString user.Type_ = "Organization" then "organization"
           else if getString user.Type_ = "Bot" then "bot"
           else "user") := by
    cases hM : ghPR.MergedAt <;> cases hS : ghPR.MergeCommitSHA <;>
      exact ⟨_, (by simp only [convertGitHubPR, hnumber, huser, hM, hS]; rfl), rfl⟩
  refine ⟨pr, hpr, ?_⟩
  rw [htype]
  cases hT : user.Type_ with
  | none => simp [getString]
  | some tag =>
    by_cases h1 : tag = "User" <;>
      by_cases h2 : tag = "Organization" <;>
      by_cases h3 : tag = "Bot" <;>
      simp_all [getString]

theorem convertGitHubPR_authorType_witness :
    (sampleGhPR (some sampleUser)).Number = some 7
      ∧ (sampleGhPR (some sampleUser)).User = some sampleUser
      ∧ ∃ pr, convertGitHubPR (sampleGhPR (some sampleUser)) sampleGhCommits = some pr
        ∧ (pr.AuthorType = "user" ∨ pr.AuthorType = "organization" ∨ pr.AuthorType = "bot")
        ∧ (pr.AuthorType = "organization" ↔ sampleUser.Type_ = some "Organization")
        ∧ (pr.AuthorType = "bot" ↔ sampleUser.Type_ = some "Bot")
        ∧ (sampleUser.Type_ = none → pr.AuthorType = "user")
        ∧ (∀ tag, sampleUser.Type_ = some tag → tag ≠ "Organization" → tag ≠ "Bot" →
            pr.AuthorType = "user") :=
  ⟨rfl, rfl,
    convertGitHubPR_authorType (sampleGhPR (some sampleUser)) sampleGhCommits 7 sampleUser rfl rfl⟩

/-- C10 as stated fails: for a raw pull request without user object
`convertGitHubPR` builds a record whose author classification is the empty
string, which is none of `user`, `organization`, `bot`. -/
theorem convertGitHubPR_authorType_empty :
    (sampleGhPR none).User = none
      ∧ (convertGitHubPR (sampleGhPR none) sampleGhCommits).map (fun pr => pr.AuthorType)
          = some ""
      ∧ ¬ ∀ pr, convertGitHubPR (sampleGhPR none) sampleGhCommits = some pr →
          pr.AuthorType = "user" ∨ pr.AuthorType = "organization" ∨ pr.AuthorType = "bot" := by
  refine ⟨rfl, by decide, ?_⟩
  intro h
  have := h _ rfl
  revert this
  decide

theorem FetchPRs_aggregate_error_witness :
    (FetchPRs scenarioFetch [2, 0, 1] scenarioNumbers).prs.len = 22
      ∧ ∃ err, (FetchPRs scenarioFetch [2, 0, 1] scenarioNumbers).err = some err
          ∧ err.failedPRs.Perm [3, 7, 20]
          ∧ err.failedPRs.length = 3 :=
  (FetchPRs_aggregate_error scenarioFetch [2, 0, 1] scenarioNumbers).2.2.2 (by decide) (by decide)

/-! ## Trimming: lemmas for claim C13 -/

theorem dropWhile_of_head_not {α : Type} (p : α → Bool) (l : List α)
    (h : ∀ x ∈ l.head?, p x = false) : l.dropWhile p = l := by
  cases l with
  | nil => rfl
  | cons x xs =>
    have hx : p x = false := h x (by simp)
    simp [List.dropWhile_cons, hx]

theorem head?_dropWhile_false {α : Type} (p : α → Bool) (l : List α) :
    ∀ x ∈ (l.dropWhile p).head?, p x = false := by
  induction l with
  | nil => simp
  | cons y ys ih =>
    cases hy : p y with
    | true => simpa [List.dropWhile_cons, hy] using ih
    | false => simp [List.dropWhile_cons, hy]

theorem all_takeWhile {α : Type} (p : α → Bool) (l : List α) :
    (l.takeWhile p).all p = true := by
  induction l with
  | nil => rfl
  | cons y ys ih =>
    cases hy : p y with
    | true => simp [List.takeWhile_cons, hy, List.all_cons]
    | false => simp [List.takeWhile_cons, hy]

/-- Trimming a list at both ends removes a leading and a trailing run of
elements satisfying `p`, and nothing else. -/
theorem trim_decompose {α : Type} (p : α → Bool) (l : List α) :
    ∃ lead trail, l = lead ++ ((l.dropWhile p).reverse.dropWhile p).reverse ++ trail
      ∧ lead.all p = true ∧ trail.all p = true := by
  refine ⟨l.takeWhile p, ((l.dropWhile p).reverse.takeWhile p).reverse, ?_, all_takeWhile p l, ?_⟩
  · have h1 := List.takeWhile_append_dropWhile p (l.dropWhile p).reverse
    have h2 : l.dropWhile p
        = ((l.dropWhile p).reverse.dropWhile p).reverse
          ++ ((l.dropWhile p).reverse.takeWhile p).reverse := by
      rw [← List.reverse_append, h1, List.reverse_reverse]
    rw [List.append_assoc, ← h2, List.takeWhile_append_dropWhile]
  · rw [List.all_reverse]
    exact all_takeWhile p _

theorem trim_last_not {α : Type} (p : α → Bool) (l : List α) :
    ∀ x ∈ (((l.dropWhile p).reverse.dropWhile p).reverse).getLast?, p x = false := by
  rw [List.getLast?_reverse]
  exact head?_dropWhile_false p _

theorem trim_head_not {α : Type} (p : α → Bool) (l : List α) :
    ∀ x ∈ (((l.dropWhile p).reverse.dropWhile p).reverse).head?, p x = false := by
  intro x hx
  have h1 := List.takeWhile_append_dropWhile p (l.dropWhile p).reverse
  have h2 : l.dropWhile p
      = ((l.dropWhile p).reverse.dropWhile p).reverse
        ++ ((l.dropWhile p).reverse.takeWhile p).reverse := by
    rw [← List.reverse_append, h1, List.reverse_reverse]
  have h3 : (l.dropWhile p).head? = some x := by
    rw [h2, List.head?_append]
    simp only [Option.mem_def] at hx
    simp [hx]
  exact head?_dropWhile_false p l x h3

theorem trim_of_trimmed {α : Type} (p : α → Bool) (t : List α)
    (hhead : ∀ x ∈ t.head?, p x = false) (hlast : ∀ x ∈ t.getLast?, p x = false) :
    ((t.dropWhile p).reverse.dropWhile p).reverse = t := by
  rw [dropWhile_of_head_not p t hhead,
    dropWhile_of_head_not p t.reverse (by rw [List.head?_reverse]; exact hlast),
    List.reverse_reverse]

theorem TrimSpace_data (s : String) :
    (TrimSpace s).data = ((s.data.dropWhile isSpace).reverse.dropWhile isSpace).reverse := rfl

theorem TrimSpace_idem (s : String) : TrimSpace (TrimSpace s) = TrimSpace s := by
  apply String.ext
  rw [TrimSpace_data (TrimSpace s)]
  exact trim_of_trimmed isSpace _ (trim_head_not isSpace s.data) (trim_last_not isSpace s.data)

theorem normalise_Commits (fetch : Int → Except Error PR) (gqlPR : GqlPR) :
    (normalise fetch gqlPR).Commits
      = gqlPR.Commits.map (fun commitNode =>
          ({ SHA := commitNode.Commit.OID
             Message := TrimSpace commitNode.Commit.Message
             Author := commitNode.Commit.Author.Name
             Email := ""
             Date := commitNode.Commit.AuthoredDate
             Parents := [] } : PRCommit)) := by
  unfold normalise convertNode
  cases hA : gqlPR.Author with
  | some author => rfl
  | none =>
    cases hF : fetch gqlPR.Number with
    | error err => rfl
    | ok restPR =>
      by_cases hne : restPR.Author = ""
      · simp [hne]
      · simp [hne]

theorem convertCommit_message (commit : RepositoryCommit) (c : Commit)
    (h : commit.Commit = some c) :
    ∃ prCommit, convertCommit commit = some prCommit
      ∧ prCommit.Message = TrimSpace (getString c.Message) := by
  cases hA : c.Author with
  | none => exact ⟨_, (by simp only [convertCommit, h, hA]; rfl), rfl⟩
  | some author => exact ⟨_, (by simp only [convertCommit, h, hA]; rfl), rfl⟩

theorem convertGitHubPR_Commits (ghPR : PullRequest) (commits : List RepositoryCommit) (pr : PR)
    (h : convertGitHubPR ghPR commits = some pr) :
    pr.Commits = commits.filterMap convertCommit := by
  unfold convertGitHubPR at h
  cases hN : ghPR.Number with
  | none => simp [hN] at h
  | some number =>
    simp only [hN] at h
    cases h
    rfl

/-! ## Trimmed commit messages: claim C13 -/

/-- C13: on both normalisation paths the canonical message of a commit is
`strings.TrimSpace` of the raw message: in `convertGitHubPR` every raw commit
with commit data yields a record whose message is the trimmed raw message (the
empty string for an absent message), and these records are the commits of the
PR record; in `FetchAllMergedPRsGraphQL` the messages of the record of a node
are the trimmed messages of its commit nodes. For every raw message the
trimmed message is the raw message without a leading and a trailing run of
whitespace; it neither starts nor ends with whitespace, and trimming it again
changes nothing. -/
theorem commit_message_trimmed :
    (∀ (commit : RepositoryCommit) (c : Commit), commit.Commit = some c →
        ∃ prCommit, convertCommit commit = some prCommit
          ∧ prCommit.Message = TrimSpace (getString c.Message)
          ∧ (c.Message = none → prCommit.Message = ""))
      ∧ (∀ (ghPR : PullRequest) (commits : List RepositoryCommit) (pr : PR),
          convertGitHubPR ghPR commits = some pr →
          pr.Commits = commits.filterMap convertCommit
            ∧ ∀ prCommit ∈ pr.Commits, ∃ commit ∈ commits, ∃ c, commit.Commit = some c
                ∧ prCommit.Message = TrimSpace (getString c.Message))
      ∧ (∀ (fetch : Int → Except Error PR) (gqlPR : GqlPR),
          (normalise fetch gqlPR).Commits.map (fun prCommit => prCommit.Message)
            = gqlPR.Commits.map (fun commitNode => TrimSpace commitNode.Commit.Message))
      ∧ (∀ raw : String,
          (∃ lead trail, raw.data = lead ++ (TrimSpace raw).data ++ trail
              ∧ lead.all isSpace = true ∧ trail.all isSpace = true)
            ∧ (∀ ch ∈ (TrimSpace raw).data.head?, isSpace ch = false)
            ∧ (∀ ch ∈ (TrimSpace raw).data.getLast?, isSpace ch = false)
            ∧ TrimSpace (TrimSpace raw) = TrimSpace raw) := by
  refine ⟨?_, ?_, ?_, ?_⟩
  · intro commit c hc
    obtain ⟨prCommit, hconv, hmsg⟩ := convertCommit_message commit c hc
    refine ⟨prCommit, hconv, hmsg, ?_⟩
    intro hnone
    rw [hmsg, hnone]
    rfl
  · intro ghPR commits pr hpr
    have hcommits := convertGitHubPR_Commits ghPR commits pr hpr
    refine ⟨hcommits, ?_⟩
    intro prCommit hmem
    rw [hcommits] at hmem
    obtain ⟨commit, hin, hconv⟩ := List.mem_filterMap.mp hmem
    cases hc : commit.Commit with
    | none => simp [convertCommit, hc] at hconv
    | some c =>
      obtain ⟨prCommit', hconv', hmsg⟩ := convertCommit_message commit c hc
      rw [hconv] at hconv'
      cases hconv'
      exact ⟨commit, hin, c, hc, hmsg⟩
  · intro fetch gqlPR
    rw [normalise_Commits, List.map_map]
    rfl
  · intro raw
    exact ⟨trim_decompose isSpace raw.data, trim_head_not isSpace raw.data,
      trim_last_not isSpace raw.data, TrimSpace_idem raw⟩

theorem commit_message_trimmed_witness :
    (normalise failingFetch (sampleGqlPR none)).Commits.map (fun prCommit => prCommit.Message)
        = ["tidy"]
      ∧ (convertGitHubPR (sampleGhPR none) sampleGhCommits).map
          (fun pr => pr.Commits.map (fun prCommit => prCommit.Message)) = some ["tidy"]
      ∧ TrimSpace " \t tidy up \n" = "tidy up" :=
  ⟨(commit_message_trimmed.2.2.1 failingFetch (sampleGqlPR none)).trans (by decide),
    by decide, by decide⟩

/-! ## Defaults of the normaliser: claim C11 -/

theorem convertCommit_defaults (commit : RepositoryCommit) (c : Commit)
    (h : commit.Commit = some c) :
    ∃ prCommit, convertCommit commit = some prCommit
      ∧ (c.Author = none → prCommit.Email = "")
      ∧ (∀ author, c.Author = some author → author.Email = none → prCommit.Email = "")
      ∧ (∀ author email, c.Author = some author → author.Email = some email →
          prCommit.Email = email)
      ∧ prCommit.Parents = commit.Parents.filterMap (fun parent => parent.SHA) := by
  cases hA : c.Author with
  | none =>
    refine ⟨_, (by simp only [convertCommit, h, hA]; rfl), fun _ => rfl, ?_, ?_, rfl⟩
    · intro author hauthor
      cases hauthor
    · intro author email hauthor
      cases hauthor
  | some author =>
    refine ⟨_, (by simp only [convertCommit, h, hA]; rfl), ?_, ?_, ?_, rfl⟩
    · intro hnone
      cases hnone
    · intro author' hauthor hemail
      cases hauthor
      show getString author.Email = ""
      rw [hemail]
      rfl
    · intro author' email hauthor hemail
      cases hauthor
      show getString author.Email = email
      rw [hemail]
      rfl

/-- C11: for every raw pull request that carries a number and every raw commit
list, `convertGitHubPR` returns a record (it has no error result, and its one
dereference, of the number, succeeds). Every missing optional field maps to
the zero value of its type: an absent merge timestamp gives the zero time, an
absent merge-commit hash the empty string; each raw commit with commit data
yields a commit of the record, whose email is the empty string when the commit
author or its email is absent, and whose parent sequence is empty when the
parent list is absent. Present values are carried over. -/
theorem convertGitHubPR_defaults (ghPR : PullRequest) (commits : List RepositoryCommit)
    (number : Int) (hnumber : ghPR.Number = some number) :
    ∃ pr, convertGitHubPR ghPR commits = some pr
      ∧ pr.Number = number
      ∧ (ghPR.MergedAt = none → pr.MergedAt = Time.zero)
      ∧ (∀ mergedAt, ghPR.MergedAt = some mergedAt → pr.MergedAt = mergedAt)
      ∧ (ghPR.MergeCommitSHA = none → pr.MergeCommit = "")
      ∧ (∀ sha, ghPR.MergeCommitSHA = some sha → pr.MergeCommit = sha)
      ∧ ∀ commit ∈ commits, ∀ c, commit.Commit = some c →
          ∃ prCommit, convertCommit commit = some prCommit ∧ prCommit ∈ pr.Commits
            ∧ (c.Author = none → prCommit.Email = "")
            ∧ (∀ author, c.Author = some author → author.Email = none → prCommit.Email = "")
            ∧ (∀ author email, c.Author = some author → author.Email = some email →
                prCommit.Email = email)
            ∧ (commit.Parents = [] → prCommit.Parents = []) := by
  obtain ⟨pr, hpr, hnum, hmerged, hsha⟩ : ∃ pr, convertGitHubPR ghPR commits = some pr
      ∧ pr.Number = number
      ∧ pr.MergedAt = ghPR.MergedAt.getD Time.zero
      ∧ pr.MergeCommit = getString ghPR.MergeCommitSHA := by
    cases hM : ghPR.MergedAt <;> cases hS : ghPR.MergeCommitSHA <;> cases hU : ghPR.User <;>
      exact ⟨_, (by simp only [convertGitHubPR, hnumber, hM, hS, hU]; rfl), rfl, rfl, rfl⟩
  have hcommits := convertGitHubPR_Commits ghPR commits pr hpr
  refine ⟨pr, hpr, hnum, ?_, ?_, ?_, ?_, ?_⟩
  · intro h
    rw [hmerged, h]
    rfl
  · intro mergedAt h
    rw [hmerged, h]
    rfl
  · intro h
    rw [hsha, h]
    rfl
  · intro sha h
    rw [hsha, h]
    rfl
  · intro commit hmem c hc
    obtain ⟨prCommit, hconv, h1, h2, h3, h4⟩ := convertCommit_defaults commit c hc
    refine ⟨prCommit, hconv, ?_, h1, h2, h3, ?_⟩
    · rw [hcommits]
      exact List.mem_filterMap.mpr ⟨commit, hmem, hconv⟩
    · intro hparents
      rw [h4, hparents]
      rfl

theorem convertGitHubPR_defaults_witness :
    bareGhPR.Number = some 3
      ∧ ∃ pr, convertGitHubPR bareGhPR bareGhCommits = some pr
        ∧ pr.Number = 3
        ∧ (bareGhPR.MergedAt = none → pr.MergedAt = Time.zero)
        ∧ (∀ mergedAt, bareGhPR.MergedAt = some mergedAt → pr.MergedAt = mergedAt)
        ∧ (bareGhPR.MergeCommitSHA = none → pr.MergeCommit = "")
        ∧ (∀ sha, bareGhPR.MergeCommitSHA = some sha → pr.MergeCommit = sha)
        ∧ ∀ commit ∈ bareGhCommits, ∀ c, commit.Commit = some c →
            ∃ prCommit, convertCommit commit = some prCommit ∧ prCommit ∈ pr.Commits
              ∧ (c.Author = none → prCommit.Email = "")
              ∧ (∀ author, c.Author = some author → author.Email = none → prCommit.Email = "")
              ∧ (∀ author email, c.Author = some author → author.Email = some email →
                  prCommit.Email = email)
              ∧ (commit.Parents = [] → prCommit.Parents = []) :=
  ⟨rfl, convertGitHubPR_defaults bareGhPR bareGhCommits 3 rfl⟩

/-! ## Author classification on the cursor path: lemmas for claim C14 -/

theorem convertGitHubPR_author_fields (ghPR : PullRequest) (commits : List RepositoryCommit)
    (pr : PR) (h : convertGitHubPR ghPR commits = some pr) :
    (ghPR.User = none → pr.Author = "")
      ∧ (ghPR.User ≠ none → classified pr) := by
  unfold convertGitHubPR at h
  cases hN : ghPR.Number with
  | none => simp [hN] at h
  | some number =>
    simp only [hN] at h
    cases hU : ghPR.User with
    | none =>
      refine ⟨fun _ => ?_, fun hne => absurd rfl hne⟩
      cases hM : ghPR.MergedAt <;> cases hS : ghPR.MergeCommitSHA <;>
        (simp only [hU, hM, hS] at h; cases h; rfl)
    | some user =>
      refine ⟨fun hnone => (by cases hnone), fun _ => ?_⟩
      have htype : pr.AuthorType
          = (if getString user.Type_ = "User" then "user"
             else if getString user.Type_ = "Organization" then "organization"
             else if getString user.Type_ = "Bot" then "bot"
             else "user") := by
        cases hM : ghPR.MergedAt <;> cases hS : ghPR.MergeCommitSHA <;>
          (simp only [hU, hM, hS] at h; cases h; rfl)
      unfold classified
      rw [htype]
      by_cases h1 : getString user.Type_ = "User" <;>
        by_cases h2 : getString user.Type_ = "Organization" <;>
        by_cases h3 : getString user.Type_ = "Bot" <;>
        simp [h1, h2, h3]

theorem convertGitHubPR_classified_of_author (ghPR : PullRequest)
    (commits : List RepositoryCommit) (pr : PR) (h : convertGitHubPR ghPR commits = some pr)
    (hauthor : pr.Author ≠ "") : classified pr := by
  obtain ⟨hnone, hsome⟩ := convertGitHubPR_author_fields ghPR commits pr h
  apply hsome
  intro hU
  exact hauthor (hnone hU)

theorem fetchSinglePR_converted (c : Client) (num : Int) (pr : PR)
    (h : fetchSinglePR c num = some (.ok pr)) :
    ∃ ghPR commits, convertGitHubPR ghPR commits = some pr := by
  unfold fetchSinglePR at h
  cases hG : c.pullRequestsGet num with
  | error err => simp [hG] at h
  | ok ghPR =>
    simp only [hG, buildPRWithCommits] at h
    cases hN : ghPR.Number with
    | none => simp [hN] at h
    | some number =>
      simp only [hN] at h
      cases hL : c.listCommits number with
      | error err => simp [hL] at h
      | ok commits =>
        simp only [hL] at h
        cases hC : convertGitHubPR ghPR commits with
        | none => simp [hC] at h
        | some pr' =>
          simp only [hC, Option.map_some', Option.some.injEq, Except.ok.injEq] at h
          exact ⟨ghPR, commits, by rw [hC, h]⟩

theorem normalise_authorType_present (fetch : Int → Except Error PR) (gqlPR : GqlPR)
    (author : GqlAuthor) (h : gqlPR.Author = some author) :
    (normalise fetch gqlPR).AuthorType
      = (if author.Typename = "Bot" then "bot"
         else if author.Typename = "Organization" then "organization"
         else if author.Typename = "User" then "user"
         else "user") := by
  unfold normalise convertNode
  rw [h]

theorem normalise_classified (c : Client) (fetch : Int → Except Error PR)
    (hfetch : deliveredBy c fetch) (gqlPR : GqlPR) : classified (normalise fetch gqlPR) := by
  cases hA : gqlPR.Author with
  | some author =>
    unfold classified
    rw [normalise_authorType_present fetch gqlPR author hA]
    by_cases h1 : author.Typename = "Bot" <;>
      by_cases h2 : author.Typename = "Organization" <;>
      by_cases h3 : author.Typename = "User" <;>
      simp [h1, h2, h3]
  | none =>
    cases hF : fetch gqlPR.Number with
    | error err =>
      have : (normalise fetch gqlPR).AuthorType = "user" := by
        unfold normalise convertNode
        rw [hA, hF]
      exact Or.inl this
    | ok restPR =>
      by_cases hne : restPR.Author = ""
      · have : (normalise fetch gqlPR).AuthorType = "user" := by
          unfold normalise convertNode
          rw [hA, hF]
          simp [hne]
        exact Or.inl this
      · have htype : (normalise fetch gqlPR).AuthorType = restPR.AuthorType := by
          unfold normalise convertNode
          rw [hA, hF]
          simp [hne]
        obtain ⟨ghPR, commits, hconv⟩ := fetchSinglePR_converted c gqlPR.Number restPR
          (hfetch gqlPR.Number restPR hF)
        have := convertGitHubPR_classified_of_author ghPR commits restPR hconv hne
        unfold classified at this ⊢
        rw [htype]
        exact this

/-- Whatever the provider answers, every record a returning run of the page
loop holds is a record it started with or the normalised record of a node. -/
theorem graphqlLoop_forall (fetch : Int → Except Error PR) (since : Time) (P : PR → Prop)
    (hP : ∀ gqlPR, P (normalise fetch gqlPR))
    (responses : List (Except Error PullRequestsQuery)) (after : Option String)
    (allPRs : Slice PR) (calls : List Call) (hacc : ∀ pr ∈ allPRs.elems, P pr) (r : Fetched)
    (hrun : graphqlLoop fetch since responses after allPRs calls = Run.returned r) :
    ∀ pr ∈ r.prs.elems, P pr := by
  induction responses generalizing after allPRs calls with
  | nil => cases hrun
  | cons response rest ih =>
    cases response with
    | error err =>
      rw [graphqlLoop_error] at hrun
      cases hrun
      exact hacc
    | ok query =>
      have hout : ∀ pr ∈ (convertNodes fetch since query.Nodes allPRs
          (calls ++ [Call.graphqlQuery after])).1.elems, P pr := by
        intro pr hpr
        rw [(convertNodes_spec fetch since query.Nodes allPRs
          (calls ++ [Call.graphqlQuery after])).1] at hpr
        rcases List.mem_append.mp hpr with h | h
        · exact hacc pr h
        · obtain ⟨gqlPR, -, rfl⟩ := List.mem_map.mp h
          exact hP gqlPR
      cases hstop : (query.Nodes.all (kept since) && query.HasNextPage) with
      | false =>
        rw [graphqlLoop_stop fetch since query rest after allPRs calls hstop] at hrun
        cases hrun
        exact hout
      | true =>
        have hboth : query.Nodes.all (kept since) = true ∧ query.HasNextPage = true := by
          simpa using hstop
        rw [graphqlLoop_continue fetch since query rest after allPRs calls hboth.1 hboth.2]
          at hrun
        exact ih _ _ _ hout hrun

/-! ## Author classification on the cursor path: claim C14 -/

/-- C14: for every bulk-query PR with a present author, whatever its type tag,
the record `FetchAllMergedPRsGraphQL` builds has the classification `bot` for
the tag `Bot`, `organization` for `Organization`, `user` for `User`, and `user`
for every other tag, the empty one included. Consequently, when the
supplementary per-PR fetch is `fetchSinglePR` of a client, every record the
paginator builds, also through the author fallback, and so every record of
every run that returns (with or without a page error), has a classification
among `user`, `organization`, `bot`; a run over a well-chained sequence of
pages returns. -/
theorem FetchAllMergedPRsGraphQL_classification (fetch : Int → Except Error PR) :
    (∀ (gqlPR : GqlPR) (author : GqlAuthor), gqlPR.Author = some author →
        (author.Typename = "Bot" → (normalise fetch gqlPR).AuthorType = "bot")
          ∧ (author.Typename = "Organization" →
              (normalise fetch gqlPR).AuthorType = "organization")
          ∧ (author.Typename = "User" → (normalise fetch gqlPR).AuthorType = "user")
          ∧ (author.Typename ≠ "Bot" → author.Typename ≠ "Organization" →
              (normalise fetch gqlPR).AuthorType = "user"))
      ∧ (∀ c : Client, deliveredBy c fetch →
          (∀ gqlPR, classified (normalise fetch gqlPR))
            ∧ (∀ (responses : List (Except Error PullRequestsQuery)) (since : Time) (r : Fetched),
                FetchAllMergedPRsGraphQL fetch responses since = Run.returned r →
                ∀ pr ∈ r.prs.elems, classified pr)
            ∧ (∀ (pages : List PullRequestsQuery) (since : Time), wellChained pages = true →
                ∃ r, FetchAllMergedPRsGraphQL fetch (pages.map Except.ok) since = Run.returned r
                  ∧ ∀ pr ∈ r.prs.elems, classified pr)) := by
  constructor
  · intro gqlPR author hauthor
    rw [normalise_authorType_present fetch gqlPR author hauthor]
    refine ⟨?_, ?_, ?_, ?_⟩
    · intro h
      simp [h]
    · intro h
      simp [h]
    · intro h
      simp [h]
    · intro h1 h2
      simp [h1, h2]
  · intro c hfetch
    have hnode := normalise_classified c fetch hfetch
    have hrun : ∀ (responses : List (Except Error PullRequestsQuery)) (since : Time)
        (r : Fetched), FetchAllMergedPRsGraphQL fetch responses since = Run.returned r →
        ∀ pr ∈ r.prs.elems, classified pr := by
      intro responses since r hr
      exact graphqlLoop_forall fetch since classified hnode responses none none []
        (by intro pr hpr; cases hpr) r hr
    refine ⟨hnode, hrun, ?_⟩
    intro pages since hchain
    obtain ⟨r, hr, -⟩ := graphqlLoop_wellChained fetch since pages hchain none none []
    exact ⟨r, hr, hrun _ since r hr⟩

theorem sampleClientFetch_delivered : deliveredBy sampleClient sampleClientFetch := by
  intro num pr h
  cases h
  rfl

theorem FetchAllMergedPRsGraphQL_classification_witness :
    deliveredBy sampleClient sampleClientFetch
      ∧ wellChained samplePages = true
      ∧ (∃ r, FetchAllMergedPRsGraphQL sampleClientFetch (samplePages.map Except.ok) ⟨100⟩
            = Run.returned r
          ∧ ∀ pr ∈ r.prs.elems, classified pr)
      ∧ ((normalise sampleClientFetch (sampleNode 8 100 none)).Author,
          (normalise sampleClientFetch (sampleNode 8 100 none)).AuthorType)
          = ("octocat", "user") :=
  ⟨sampleClientFetch_delivered, by decide,
    ((FetchAllMergedPRsGraphQL_classification sampleClientFetch).2 sampleClient
      sampleClientFetch_delivered).2.2 samplePages ⟨100⟩ (by decide),
    by decide⟩

/-! ## The fan-out as a transition system: lemmas for claim C12 -/

theorem countP_set_of_getElem? {α : Type} (p : α → Bool) (l : List α) (i : Nat) (a b : α)
    (h : l[i]? = some a) :
    (l.set i b).countP p + (if p a then 1 else 0) = l.countP p + (if p b then 1 else 0) := by
  induction l generalizing i with
  | nil => simp at h
  | cons x xs ih =>
    cases i with
    | zero =>
      simp only [List.getElem?_cons_zero, Option.some.injEq] at h
      subst h
      simp only [List.set_cons_zero, List.countP_cons]
      omega
    | succ j =>
      simp only [List.getElem?_cons_succ] at h
      have := ih j h
      simp only [List.set_cons_succ, List.countP_cons]
      omega

theorem Pool.step_dispatch (s : Pool) (num : Int) (rest : List Int) (h : s.pending = num :: rest) :
    s.step Event.dispatch
      = some { s with pending := rest, workers := s.workers ++ [(num, WorkerPC.acquiring)] } := by
  simp only [Pool.step, h]

theorem Pool.step_acquiring (s : Pool) (i : Nat) (num : Int)
    (h : s.workers[i]? = some (num, WorkerPC.acquiring)) :
    s.step (Event.advance i)
      = if s.semaphore < semaphoreCapacity then
          some { s with
            workers := s.workers.set i (num, WorkerPC.fetching)
            semaphore := s.semaphore + 1 }
        else none := by
  simp only [Pool.step, h]

theorem Pool.step_fetching (s : Pool) (i : Nat) (num : Int)
    (h : s.workers[i]? = some (num, WorkerPC.fetching)) :
    s.step (Event.advance i)
      = some { s with workers := s.workers.set i (num, WorkerPC.delivering) } := by
  simp only [Pool.step, h]

theorem Pool.step_delivering (s : Pool) (i : Nat) (num : Int)
    (h : s.workers[i]? = some (num, WorkerPC.delivering)) :
    s.step (Event.advance i)
      = some { s with
          workers := s.workers.set i (num, WorkerPC.releasing)
          delivered := s.delivered ++ [num] } := by
  simp only [Pool.step, h]

theorem Pool.step_releasing (s : Pool) (i : Nat) (num : Int)
    (h : s.workers[i]? = some (num, WorkerPC.releasing)) :
    s.step (Event.advance i)
      = if 0 < s.semaphore then
          some { s with
            workers := s.workers.set i (num, WorkerPC.finished)
            semaphore := s.semaphore - 1 }
        else none := by
  simp only [Pool.step, h]

theorem Pool.step_finished (s : Pool) (i : Nat) (num : Int)
    (h : s.workers[i]? = some (num, WorkerPC.finished)) :
    s.step (Event.advance i) = none := by
  simp only [Pool.step, h]

theorem Pool.step_unstarted (s : Pool) (i : Nat) (h : s.workers[i]? = none) :
    s.step (Event.advance i) = none := by
  simp only [Pool.step, h]

/-- The values buffered in the semaphore channel are the slots held by the
workers, and they are at most its capacity: one step keeps this. -/
theorem Pool.step_invariant (s s' : Pool) (e : Event) (hstep : s.step e = some s')
    (hheld : s.semaphore = s.slotsHeld) (hcap : s.semaphore ≤ semaphoreCapacity) :
    s'.semaphore = s'.slotsHeld ∧ s'.semaphore ≤ semaphoreCapacity := by
  cases e with
  | dispatch =>
    cases hp : s.pending with
    | nil => simp [Pool.step, hp] at hstep
    | cons num rest =>
      rw [Pool.step_dispatch s num rest hp] at hstep
      cases hstep
      refine ⟨?_, hcap⟩
      simp only [Pool.slotsHeld, List.countP_append] at hheld ⊢
      rw [hheld]
      rfl
  | advance i =>
    cases hw : s.workers[i]? with
    | none =>
      rw [Pool.step_unstarted s i hw] at hstep
      cases hstep
    | some w =>
      obtain ⟨num, pc⟩ := w
      have hcount := fun b => countP_set_of_getElem? (fun w : Int × WorkerPC => w.2.holdsSlot)
        s.workers i (num, pc) b hw
      cases pc with
      | acquiring =>
        rw [Pool.step_acquiring s i num hw] at hstep
        by_cases hfree : s.semaphore < semaphoreCapacity
        · rw [if_pos hfree] at hstep
          cases hstep
          have := hcount (num, WorkerPC.fetching)
          simp only [Pool.slotsHeld, WorkerPC.holdsSlot] at this hheld ⊢
          simp only [Bool.false_eq_true, if_false, if_true] at this
          constructor
          · omega
          · omega
        · rw [if_neg hfree] at hstep
          cases hstep
      | fetching =>
        rw [Pool.step_fetching s i num hw] at hstep
        cases hstep
        have := hcount (num, WorkerPC.delivering)
        simp only [Pool.slotsHeld, WorkerPC.holdsSlot] at this hheld ⊢
        exact ⟨by omega, hcap⟩
      | delivering =>
        rw [Pool.step_delivering s i num hw] at hstep
        cases hstep
        have := hcount (num, WorkerPC.releasing)
        simp only [Pool.slotsHeld, WorkerPC.holdsSlot] at this hheld ⊢
        exact ⟨by omega, hcap⟩
      | releasing =>
        rw [Pool.step_releasing s i num hw] at hstep
        by_cases htaken : 0 < s.semaphore
        · rw [if_pos htaken] at hstep
          cases hstep
          have := hcount (num, WorkerPC.finished)
          simp only [Pool.slotsHeld, WorkerPC.holdsSlot] at this hheld ⊢
          simp only [Bool.false_eq_true, if_false, if_true] at this
          constructor
          · omega
          · omega
        · rw [if_neg htaken] at hstep
          cases hstep
      | finished =>
        rw [Pool.step_finished s i num hw] at hstep
        cases hstep

theorem Pool.run_invariant (s s' : Pool) (events : List Event) (hrun : s.run events = some s')
    (hheld : s.semaphore = s.slotsHeld) (hcap : s.semaphore ≤ semaphoreCapacity) :
    s'.semaphore = s'.slotsHeld ∧ s'.semaphore ≤ semaphoreCapacity := by
  induction events generalizing s with
  | nil =>
    simp only [Pool.run, Option.some.injEq] at hrun
    subst hrun
    exact ⟨hheld, hcap⟩
  | cons e es ih =>
    simp only [Pool.run] at hrun
    cases hstep : s.step e with
    | none => simp [hstep] at hrun
    | some mid =>
      rw [hstep] at hrun
      obtain ⟨h1, h2⟩ := Pool.step_invariant s mid e hstep hheld hcap
      exact ih mid hrun h1 h2

theorem Pool.inFlight_le_slotsHeld (s : Pool) : s.inFlight ≤ s.slotsHeld := by
  unfold Pool.inFlight Pool.slotsHeld
  apply List.countP_mono_left
  intro w _ hw
  have : w.2 = WorkerPC.fetching := by simpa using hw
  rw [this]
  rfl

theorem Pool.step_semaphore_decrease (s s' : Pool) (e : Event) (hstep : s.step e = some s')
    (hless : s'.semaphore < s.semaphore) :
    ∃ i num, e = Event.advance i ∧ s.workers[i]? = some (num, WorkerPC.releasing) := by
  cases e with
  | dispatch =>
    cases hp : s.pending with
    | nil => simp [Pool.step, hp] at hstep
    | cons num rest =>
      rw [Pool.step_dispatch s num rest hp] at hstep
      cases hstep
      exact absurd hless (Nat.lt_irrefl _)
  | advance i =>
    cases hw : s.workers[i]? with
    | none =>
      rw [Pool.step_unstarted s i hw] at hstep
      cases hstep
    | some w =>
      obtain ⟨num, pc⟩ := w
      cases pc with
      | acquiring =>
        rw [Pool.step_acquiring s i num hw] at hstep
        by_cases hfree : s.semaphore < semaphoreCapacity
        · rw [if_pos hfree] at hstep
          cases hstep
          simp only at hless
          omega
        · rw [if_neg hfree] at hstep
          cases hstep
      | fetching =>
        rw [Pool.step_fetching s i num hw] at hstep
        cases hstep
        exact absurd hless (Nat.lt_irrefl _)
      | delivering =>
        rw [Pool.step_delivering s i num hw] at hstep
        cases hstep
        exact absurd hless (Nat.lt_irrefl _)
      | releasing => exact ⟨i, num, rfl, hw⟩
      | finished =>
        rw [Pool.step_finished s i num hw] at hstep
        cases hstep

/-! ## The concurrency ceiling: claim C12 -/

/-- C12: in every state of every execution of the fan-out of `FetchPRs` (the
fan-out of a page of `FetchAllMergedPRs` runs the same statements over the
numbers of the page), at most 10 per-PR fetch operations are in flight: the
workers holding a slot are as many as the values buffered in the semaphore
channel, at most 10. A worker at the semaphore send cannot proceed while 10
slots are held, proceeds to its fetch when fewer are, and the only statement
that lowers the number of slots held is the deferred receive of a worker that
releases its slot. -/
theorem fanOut_at_most_ten_in_flight (prNumbers : List Int) (events : List Event) (s : Pool)
    (hrun : (Pool.start prNumbers).run events = some s) :
    s.inFlight ≤ 10
      ∧ s.semaphore = s.slotsHeld
      ∧ s.slotsHeld ≤ 10
      ∧ (∀ i num, s.workers[i]? = some (num, WorkerPC.acquiring) →
          (s.slotsHeld = 10 → s.step (Event.advance i) = none)
            ∧ (s.slotsHeld < 10 → ∃ s', s.step (Event.advance i) = some s'
                ∧ s'.workers[i]? = some (num, WorkerPC.fetching)
                ∧ s'.slotsHeld = s.slotsHeld + 1))
      ∧ (∀ e s', s.step e = some s' → s'.slotsHeld < s.slotsHeld →
          ∃ i num, e = Event.advance i ∧ s.workers[i]? = some (num, WorkerPC.releasing)) := by
  obtain ⟨hheld, hcap⟩ := Pool.run_invariant (Pool.start prNumbers) s events hrun rfl
    (Nat.zero_le _)
  have hcap10 : s.semaphore ≤ 10 := hcap
  refine ⟨?_, hheld, ?_, ?_, ?_⟩
  · have := Pool.inFlight_le_slotsHeld s
    omega
  · omega
  · intro i num hw
    rw [Pool.step_acquiring s i num hw]
    constructor
    · intro hfull
      have hnot : ¬ s.semaphore < semaphoreCapacity := by
        unfold semaphoreCapacity
        omega
      rw [if_neg hnot]
    · intro hfree
      have hlt : s.semaphore < semaphoreCapacity := by
        unfold semaphoreCapacity
        omega
      rw [if_pos hlt]
      have hstep : s.step (Event.advance i)
          = some { s with
              workers := s.workers.set i (num, WorkerPC.fetching)
              semaphore := s.semaphore + 1 } := by
        rw [Pool.step_acquiring s i num hw, if_pos hlt]
      obtain ⟨hheld', -⟩ := Pool.step_invariant s _ _ hstep hheld hcap
      obtain ⟨hi, -⟩ := List.getElem?_eq_some_iff.mp hw
      refine ⟨_, rfl, List.getElem?_set_self hi, ?_⟩
      rw [← hheld', ← hheld]
  · intro e s' hstep hless
    obtain ⟨hheld', -⟩ := Pool.step_invariant s s' e hstep hheld hcap
    exact Pool.step_semaphore_decrease s s' e hstep (by omega)

theorem fanOut_at_most_ten_in_flight_witness :
    (Pool.start twelveNumbers).run tenAcquired = some tenInFlight
      ∧ tenInFlight.inFlight = 10
      ∧ tenInFlight.step (Event.advance 10) = none
      ∧ (tenInFlight.inFlight ≤ 10
        ∧ tenInFlight.semaphore = tenInFlight.slotsHeld
        ∧ tenInFlight.slotsHeld ≤ 10
        ∧ (∀ i num, tenInFlight.workers[i]? = some (num, WorkerPC.acquiring) →
            (tenInFlight.slotsHeld = 10 → tenInFlight.step (Event.advance i) = none)
              ∧ (tenInFlight.slotsHeld < 10 → ∃ s', tenInFlight.step (Event.advance i) = some s'
                  ∧ s'.workers[i]? = some (num, WorkerPC.fetching)
                  ∧ s'.slotsHeld = tenInFlight.slotsHeld + 1))
        ∧ (∀ e s', tenInFlight.step e = some s' → s'.slotsHeld < tenInFlight.slotsHeld →
            ∃ i num, e = Event.advance i
              ∧ tenInFlight.workers[i]? = some (num, WorkerPC.releasing))) :=
  ⟨by decide, by decide, by decide,
    fanOut_at_most_ten_in_flight twelveNumbers tenAcquired tenInFlight (by decide)⟩

/-! ## The transition system and the functional model of the fan-out -/

theorem filterMap_set_same {α β : Type} (f : α → Option β) (l : List α) (i : Nat) (a b : α)
    (h : l[i]? = some a) (hf : f b = f a) : (l.set i b).filterMap f = l.filterMap f := by
  induction l generalizing i with
  | nil => simp at h
  | cons x xs ih =>
    cases i with
    | zero =>
      simp only [List.getElem?_cons_zero, Option.some.injEq] at h
      subst h
      simp only [List.set_cons_zero, List.filterMap_cons, hf]
    | succ j =>
      simp only [List.getElem?_cons_succ] at h
      simp only [List.set_cons_succ, List.filterMap_cons, ih j h]

theorem filterMap_set_remove {α β : Type} (f : α → Option β) (l : List α) (i : Nat) (a b : α)
    (n : β) (h : l[i]? = some a) (hfa : f a = some n) (hfb : f b = none) :
    (l.filterMap f).Perm (n :: (l.set i b).filterMap f) := by
  induction l generalizing i with
  | nil => simp at h
  | cons x xs ih =>
    cases i with
    | zero =>
      simp only [List.getElem?_cons_zero, Option.some.injEq] at h
      subst h
      simp only [List.set_cons_zero, List.filterMap_cons, hfa, hfb]
      exact List.Perm.refl _
    | succ j =>
      simp only [List.getElem?_cons_succ] at h
      have hrec := ih j h
      simp only [List.set_cons_succ, List.filterMap_cons]
      cases hx : f x with
      | none => exact hrec
      | some y => exact (hrec.cons y).trans (List.Perm.swap n y _)

/-- One step moves numbers between the three stages (pending, started and not
yet delivered, delivered) and neither loses nor duplicates one. -/
theorem Pool.step_conserves (s s' : Pool) (e : Event) (hstep : s.step e = some s') :
    (s'.delivered ++ s'.undelivered ++ s'.pending).Perm
      (s.delivered ++ s.undelivered ++ s.pending) := by
  cases e with
  | dispatch =>
    cases hp : s.pending with
    | nil => simp [Pool.step, hp] at hstep
    | cons num rest =>
      rw [Pool.step_dispatch s num rest hp] at hstep
      cases hstep
      simp only [Pool.undelivered, List.filterMap_append, List.filterMap_cons,
        List.filterMap_nil, WorkerPC.owesOutcome, if_true, List.append_assoc,
        List.singleton_append]
      exact List.Perm.refl _
  | advance i =>
    cases hw : s.workers[i]? with
    | none =>
      rw [Pool.step_unstarted s i hw] at hstep
      cases hstep
    | some w =>
      obtain ⟨num, pc⟩ := w
      cases pc with
      | acquiring =>
        rw [Pool.step_acquiring s i num hw] at hstep
        by_cases hfree : s.semaphore < semaphoreCapacity
        · rw [if_pos hfree] at hstep
          cases hstep
          simp only [Pool.undelivered]
          rw [filterMap_set_same (fun w : Int × WorkerPC => if w.2.owesOutcome then some w.1 else none)
            s.workers i _ (num, WorkerPC.fetching) hw rfl]
        · rw [if_neg hfree] at hstep
          cases hstep
      | fetching =>
        rw [Pool.step_fetching s i num hw] at hstep
        cases hstep
        simp only [Pool.undelivered]
        rw [filterMap_set_same (fun w : Int × WorkerPC => if w.2.owesOutcome then some w.1 else none)
            s.workers i _ (num, WorkerPC.delivering) hw rfl]
      | delivering =>
        rw [Pool.step_delivering s i num hw] at hstep
        cases hstep
        have hperm := filterMap_set_remove
          (fun w : Int × WorkerPC => if w.2.owesOutcome then some w.1 else none)
          s.workers i (num, WorkerPC.delivering) (num, WorkerPC.releasing) num hw rfl rfl
        simp only [Pool.undelivered, List.append_assoc, List.singleton_append]
        exact (List.Perm.append_left s.delivered (hperm.symm.append_right s.pending))
      | releasing =>
        rw [Pool.step_releasing s i num hw] at hstep
        by_cases htaken : 0 < s.semaphore
        · rw [if_pos htaken] at hstep
          cases hstep
          simp only [Pool.undelivered]
          rw [filterMap_set_same (fun w : Int × WorkerPC => if w.2.owesOutcome then some w.1 else none)
            s.workers i _ (num, WorkerPC.finished) hw rfl]
        · rw [if_neg htaken] at hstep
          cases hstep
      | finished =>
        rw [Pool.step_finished s i num hw] at hstep
        cases hstep

theorem Pool.run_conserves (s s' : Pool) (events : List Event) (hrun : s.run events = some s') :
    (s'.delivered ++ s'.undelivered ++ s'.pending).Perm
      (s.delivered ++ s.undelivered ++ s.pending) := by
  induction events generalizing s with
  | nil =>
    simp only [Pool.run, Option.some.injEq] at hrun
    subst hrun
    exact List.Perm.refl _
  | cons e es ih =>
    simp only [Pool.run] at hrun
    cases hstep : s.step e with
    | none => simp [hstep] at hrun
    | some mid =>
      rw [hstep] at hrun
      exact (ih mid hrun).trans (Pool.step_conserves s mid e hstep)

theorem Pool.undelivered_of_complete (s : Pool) (h : s.complete = true) :
    s.pending = [] ∧ s.undelivered = [] := by
  simp only [Pool.complete, Bool.and_eq_true, List.isEmpty_iff, List.all_eq_true,
    decide_eq_true_eq] at h
  refine ⟨h.1, ?_⟩
  unfold Pool.undelivered
  rw [List.filterMap_eq_nil_iff]
  intro w hw
  rw [h.2 w hw]
  rfl

/-- A complete execution of the fan-out sends one outcome per number, in an
order that is a completion order of the functional model: for the schedule of
that order `FetchPRs` returns the records in the order they were sent. -/
theorem Pool.complete_run_is_completionOrder (fetch : Int → Except Error PR)
    (prNumbers : List Int) (events : List Event) (s : Pool)
    (hrun : (Pool.start prNumbers).run events = some s) (hdone : s.complete = true) :
    s.delivered.Perm prNumbers
      ∧ ∃ sched, completionOrder prNumbers sched = s.delivered
          ∧ (FetchPRs fetch sched prNumbers).prs.elems = s.delivered.filterMap (fetchedPR fetch) := by
  have hperm := Pool.run_conserves (Pool.start prNumbers) s events hrun
  obtain ⟨hp, hu⟩ := Pool.undelivered_of_complete s hdone
  have hstart : (Pool.start prNumbers).delivered ++ (Pool.start prNumbers).undelivered
      ++ (Pool.start prNumbers).pending = prNumbers := rfl
  have hdelivered : s.delivered.Perm prNumbers := by
    rw [hstart, hp, hu] at hperm
    simpa using hperm
  obtain ⟨sched, hsched⟩ := completionOrder_surjective prNumbers s.delivered hdelivered
  refine ⟨hdelivered, sched, hsched, ?_⟩
  rw [(FetchPRs_eq fetch sched prNumbers).1, hsched]

theorem Pool.complete_run_is_completionOrder_witness :
    (Pool.start [4, 9]).run twoWorkersRun = some twoWorkersDone
      ∧ twoWorkersDone.complete = true
      ∧ twoWorkersDone.delivered.Perm [4, 9]
      ∧ ∃ sched, completionOrder [4, 9] sched = twoWorkersDone.delivered
          ∧ (FetchPRs flakyFetch sched [4, 9]).prs.elems
            = twoWorkersDone.delivered.filterMap (fetchedPR flakyFetch) :=
  ⟨by decide, by decide,
    Pool.complete_run_is_completionOrder flakyFetch [4, 9] twoWorkersRun twoWorkersDone
      (by decide) (by decide)⟩

end Changelog
